import Mathlib

/-!
Verification of the series-tracker repository: the record store, the update
engine (`update_series_chapter`, the float variant), the text encoder
(`format_data_to_text` of `export_series.py`) and the text decoder
(`parse_series_data` of the importer).

Modelling conventions (shallow embedding):
  - Python strings are `List Char` (`Str`).  The character classes used by
    the source (`str.strip`, the regex classes `\s` and `\d`) are modelled by
    their ASCII parts; the source is only exercised on ASCII data.
  - Python `float` values are modelled exactly: finite values as rationals
    (no binary rounding), plus the distinguished values `inf`, `-inf` and
    `nan` which `float(str)` can produce.  The signed zero `-0.0` collapses
    to `0`.  `str()` of a finite float is modelled as the exact plain decimal
    form, which matches Python for `0` and for magnitudes in `[1e-4, 1e16)`
    (outside that range Python switches to scientific notation; the
    round-trip theorems below restrict to the plain-decimal range).
  - A Python dict is an insertion-ordered association list with unique keys;
    `d[k] = v` is `dictInsert`, which overwrites in place or appends.
-/

namespace SeriesTracker

/-- Python strings, modelled as lists of characters. -/
abbrev Str := List Char

/-- The whitespace characters stripped by `str.strip()` and matched by the
regex class `\s` (ASCII part). -/
def pyWs (c : Char) : Bool :=
  c == ' ' || c == '\t' || c == '\n' || c == '\r' || c == '\x0b' || c == '\x0c'

/-- Python `str.strip()`: drop whitespace from both ends. -/
def pyStripL (l : Str) : Str :=
  ((l.dropWhile pyWs).reverse.dropWhile pyWs).reverse

/-- Python `str.split('\n')`. -/
def splitNlL : Str → List Str
  | [] => [[]]
  | c :: rest =>
    if c = '\n' then [] :: splitNlL rest
    else
      match splitNlL rest with
      | l :: ls => (c :: l) :: ls
      | [] => [[c]]

/-- Python `'\n'.join(lines)`. -/
def joinNlL : List Str → Str
  | [] => []
  | [l] => l
  | l :: l' :: ls => l ++ '\n' :: joinNlL (l' :: ls)

/-- Bool-valued list-prefix test (used to model Python's substring test). -/
def isPre : Str → Str → Bool
  | [], _ => true
  | _ :: _, [] => false
  | a :: as, b :: bs => a == b && isPre as bs

/-- Python's `pat in s` substring test. -/
def hasSub (pat : Str) : Str → Bool
  | [] => isPre pat []
  | c :: rest => isPre pat (c :: rest) || hasSub pat rest

/-- Numeric value of an ASCII digit character. -/
def digitVal (c : Char) : ℕ := c.toNat - 48

/-- Value of a string of ASCII digits read in base 10. -/
def digitsVal (l : Str) : ℕ := l.foldl (fun a c => 10 * a + digitVal c) 0

/-- The ten decimal digit characters. -/
def digits10 : Str := "0123456789".toList

/-! ### The Python float model -/

/-- A Python `float` as observed by this program: an exact finite rational,
one of the two infinities, or `nan`. -/
inductive PyFloat where
  | finite (q : ℚ)
  | pinf
  | ninf
  | nan
deriving DecidableEq

/-- The Python comparison `x < 0` on a float (false on `nan`). -/
def PyFloat.ltZero : PyFloat → Bool
  | .finite q => decide (q < 0)
  | .pinf => false
  | .ninf => true
  | .nan => false

/-- Value of a digit string read as the fractional part after a decimal
point. -/
def fracVal (l : Str) : ℚ := (digitsVal l : ℚ) / 10 ^ l.length

/-- Split a leading `+` or `-` sign; returns (isNegative, rest). -/
def signSplit : Str → Bool × Str
  | [] => (false, [])
  | c :: t =>
    if c = '+' then (false, t)
    else if c = '-' then (true, t)
    else (false, c :: t)

/-- PEP 515: every underscore in a numeric literal must sit directly between
two digits.  Scans with the previous character at hand. -/
def usOkAux : Char → Str → Bool
  | _, [] => true
  | p, c :: rest =>
    if c = '_' then
      (p.isDigit && (match rest with | d :: _ => d.isDigit | [] => false))
        && usOkAux c rest
    else usOkAux c rest

/-- Underscore placement check for the whole literal. -/
def usOk : Str → Bool
  | [] => true
  | c :: rest => c != '_' && usOkAux c rest

/-- Exponent part of a float literal: optional sign then at least one
digit, consuming the entire rest of the string. -/
def expPart (m : ℚ) (t : Str) : Option ℚ :=
  let (neg, t1) := signSplit t
  if t1.isEmpty || !t1.all Char.isDigit then none
  else
    let e : ℤ := if neg then -(digitsVal t1 : ℤ) else (digitsVal t1 : ℤ)
    some (m * (10 : ℚ) ^ e)

/-- Mantissa-and-exponent grammar of a (sign-free, underscore-free) Python
float literal: `digits [. digits] [e|E [sign] digits]`, at least one digit in
the mantissa, the whole string consumed. -/
def pyFloatCore (l : Str) : Option ℚ :=
  let ip := l.takeWhile Char.isDigit
  let r1 := l.dropWhile Char.isDigit
  let fpr : Str × Str :=
    match r1 with
    | '.' :: t => (t.takeWhile Char.isDigit, t.dropWhile Char.isDigit)
    | _ => ([], r1)
  if ip.isEmpty && fpr.1.isEmpty then none
  else
    let m : ℚ := (digitsVal ip : ℚ) + fracVal fpr.1
    match fpr.2 with
    | [] => some m
    | 'e' :: t => expPart m t
    | 'E' :: t => expPart m t
    | _ => none

/-- Python `float(s)`: strip whitespace, take one optional sign, accept
`inf`/`infinity`/`nan` case-insensitively, otherwise parse a decimal literal
with PEP 515 underscores. -/
def pyFloat (s : Str) : Option PyFloat :=
  let t := pyStripL s
  let (neg, t1) := signSplit t
  let low := t1.map Char.toLower
  if low = "inf".toList || low = "infinity".toList then
    some (if neg then .ninf else .pinf)
  else if low = "nan".toList then some PyFloat.nan
  else if usOk t1 then
    match pyFloatCore (t1.filter (fun c => c != '_')) with
    | some q => some (.finite (if neg then -q else q))
    | none => none
  else none

/-! ### The record store -/

/-- One record of the store: the value of the Python dict
`{"chapter": float, "category": str}`. -/
structure SeriesInfo where
  chapter : PyFloat
  category : Str
deriving DecidableEq

instance : Inhabited PyFloat := ⟨PyFloat.nan⟩

instance : Inhabited SeriesInfo := ⟨⟨PyFloat.nan, []⟩⟩

/-- The store: a Python dict from series name to record, i.e. an
insertion-ordered association list with unique keys. -/
abbrev Store := List (Str × SeriesInfo)

/-- The fixed category enumeration, in display order. -/
def CATEGORIES : List Str :=
  ["Manga".toList, "Manhwa".toList, "Manhua".toList, "Other".toList]

/-- Python dict assignment `d[k] = v`: overwrite the existing entry in
place, or append a new one. -/
def dictInsert : Store → Str → SeriesInfo → Store
  | [], n, v => [(n, v)]
  | p :: st, n, v => if p.1 = n then (n, v) :: st else p :: dictInsert st n v

/-- Python dict lookup `d.get(k)`. -/
def lookupS : Store → Str → Option SeriesInfo
  | [], _ => none
  | p :: st, n => if p.1 = n then some p.2 else lookupS st n

/-! ### The update engine (`update_series_chapter`, float variant) -/

/-- Which validation failed, distinguishing the two error messages printed
by `update_series_chapter`; `ok` is the `True` return. -/
inductive UpdateOutcome where
  | invalidCategory
  | invalidChapter
  | ok
deriving DecidableEq

/-- `update_series_chapter` of `Series_Tracker.py` (float variant): validate
the category against `CATEGORIES`, then parse the chapter with `float` and
reject values `< 0`, then write the record unconditionally. -/
def update_series_chapter (series_name chapter_number category : Str)
    (series_data : Store) : UpdateOutcome × Store :=
  if !CATEGORIES.contains category then (.invalidCategory, series_data)
  else
    match pyFloat chapter_number with
    | none => (.invalidChapter, series_data)
    | some v =>
      if v.ltZero then (.invalidChapter, series_data)
      else (.ok, dictInsert series_data series_name ⟨v, category⟩)

/-! ### The decoder (`parse_series_data` of the importer) -/

/-- The separator token that makes the decoder skip a line
(`'-----' in line`). -/
def sepTok : Str := "-----".toList

/-- The digit-or-dot character class of the regex group `([\d\.]+)`. -/
def digitDot (c : Char) : Bool := c.isDigit || c == '.'

/-- After the dash: `ep:` then `\s*([\d\.]+)$`, the group running to the end
of the line. -/
def sepMatchEp : Str → Option Str
  | c1 :: c2 :: c3 :: r2 =>
    if c1 = 'e' ∧ c2 = 'p' ∧ c3 = ':' then
      let d := r2.dropWhile pyWs
      if !d.isEmpty && d.all digitDot then some d else none
    else none
  | _ => none

/-- A literal dash then `\s*` before the `ep:` keyword. -/
def sepMatchDash : Str → Option Str
  | [] => none
  | c :: r1 => if c = '-' then sepMatchEp (r1.dropWhile pyWs) else none

/-- Match the tail `\s*-\s*ep:\s*([\d\.]+)$` of the series-line regex at the
start of `l`, returning the chapter group.  Greedy whitespace runs are
deterministic because whitespace is disjoint from the literal characters and
from the digit-dot class. -/
def sepMatch (l : Str) : Option Str :=
  sepMatchDash (l.dropWhile pyWs)

/-- The regex `^(.+?)\s*-\s*ep:\s*([\d\.]+)$` (`SERIES_LINE_PATTERN`): the
lazy group `(.+?)` grows one character at a time until the rest of the
pattern matches the remainder of the line.  Returns (group 1, group 2). -/
def seriesSplit : Str → Str → Option (Str × Str)
  | _, [] => none
  | acc, c :: rest =>
    match sepMatch rest with
    | some d => some (acc ++ [c], d)
    | none => seriesSplit (acc ++ [c]) rest

/-- One iteration of the decoder loop: strip the line; skip it if blank or
if it contains the separator token; treat a colon-terminated line as a
category switch when the text before the first colon strips to an enumerated
category; otherwise try the series-line regex and `float` the chapter.
The state is (current category, store built so far). -/
def decodeStep (acc : Str × Store) (l : Str) : Str × Store :=
  let s := pyStripL l
  if s.isEmpty || hasSub sepTok s then acc
  else if s.getLast? = some ':' then
    let nm := pyStripL (s.takeWhile (fun c => c != ':'))
    if CATEGORIES.contains nm then (nm, acc.2) else acc
  else
    match seriesSplit [] s with
    | some (g1, g2) =>
      (match pyFloat (pyStripL g2) with
       | some v => (acc.1, dictInsert acc.2 (pyStripL g1) ⟨v, acc.1⟩)
       | none => acc)
    | none => acc

/-- Decoder loop over a list of lines from a given starting state. -/
def decodeLines (ls : List Str) (acc : Str × Store) : Str × Store :=
  ls.foldl decodeStep acc

/-- `parse_series_data` of the importer: strip the whole text, split it on
newlines, and fold the line decoder starting from category `Other` and an
empty store. -/
def parse_series_data (text : Str) : Store :=
  (decodeLines (splitNlL (pyStripL text)) ("Other".toList, ([] : Store))).2

/-! ### The encoder (`format_data_to_text` of `export_series.py`) -/

/-- The 44-dash separator line emitted by the exporter. -/
def SEPLINE : Str := "--------------------------------------------".toList

/-- The category under which the exporter groups a record: the stored one if
it is enumerated, else `Other`. -/
def effCat (i : SeriesInfo) : Str :=
  if CATEGORIES.contains i.category then i.category else "Other".toList

/-- The grouping pass of the exporter: one bucket dict per category, filled
by iterating the store in order. -/
def groupOf (data : Store) (cat : Str) : Store :=
  data.foldl (fun acc p => if effCat p.2 = cat then dictInsert acc p.1 p.2 else acc) []

/-- The sort key `item[0].lower()`. -/
def lowerKey (s : Str) : Str := s.map Char.toLower

/-- Strict lexicographic comparison of strings by code point, as Python
compares the sort keys. -/
def lexLt : Str → Str → Bool
  | [], [] => false
  | [], _ :: _ => true
  | _ :: _, [] => false
  | a :: as, b :: bs =>
    if a.toNat < b.toNat then true
    else if b.toNat < a.toNat then false
    else lexLt as bs

/-- Stable insertion of a record into a list sorted by lowercased name: the
new record goes before the first entry that is not strictly below it, so
equal keys keep their original order. -/
def insSorted (x : Str × SeriesInfo) : Store → Store
  | [] => [x]
  | y :: ys =>
    if lexLt (lowerKey y.1) (lowerKey x.1) then y :: insSorted x ys
    else x :: y :: ys

/-- Python's stable `sorted(..., key=lambda item: item[0].lower())`. -/
def sortByName : Store → Store
  | [] => []
  | x :: xs => insSorted x (sortByName xs)

/-- Decimal digit characters of a natural number, most significant first,
computed with explicit fuel (enough fuel once `fuel > n`). -/
def natCharsAux : ℕ → ℕ → Str
  | 0, _ => []
  | fuel + 1, n =>
    if n < 10 then [Char.ofNat (48 + n)]
    else natCharsAux fuel (n / 10) ++ [Char.ofNat (48 + n % 10)]

/-- Decimal digit characters of a natural number. -/
def natChars (n : ℕ) : Str := natCharsAux (n + 1) n

/-- The least number of decimal fraction digits needed to write `q`
exactly, found by search; `0` also for numbers with no finite decimal form
(unreachable from Python floats). -/
def decScale (q : ℚ) : ℕ :=
  (((List.range (q.den + 1)).filter (fun k => (q * 10 ^ k).den == 1)).head?).getD 0

/-- Fraction digits of width `k`: the digits of `b` left-padded with zeros. -/
def fracChars (b k : ℕ) : Str :=
  List.replicate (k - (natChars b).length) '0' ++ natChars b

/-- Python `str()` of a finite float in its plain-decimal range: an integer
value prints as `<digits>.0`, otherwise `<int part>.<fraction digits>` with
the minimal number of fraction digits. -/
def pyReprQ (q : ℚ) : Str :=
  let sign : Str := if q < 0 then ['-'] else []
  let a : ℚ := |q|
  let k := decScale a
  let m := (a * 10 ^ k).num.toNat
  if k = 0 then sign ++ natChars m ++ ['.', '0']
  else sign ++ natChars (m / 10 ^ k) ++ '.' :: fracChars (m % 10 ^ k) k

/-- Python `str()` of a float value. -/
def pyRepr : PyFloat → Str
  | .finite q => pyReprQ q
  | .pinf => "inf".toList
  | .ninf => "-inf".toList
  | .nan => "nan".toList

/-- The series line `f"{series}- ep: {chapter}"`. -/
def seriesLine (n : Str) (ch : PyFloat) : Str := n ++ "- ep: ".toList ++ pyRepr ch

/-- The lines the exporter appends for one category: nothing for an empty
bucket, else the header, each sorted record followed by three blank lines,
and the separator block. -/
def catBlockLines (data : Store) (cat : Str) : List Str :=
  let bucket := groupOf data cat
  if bucket.isEmpty then []
  else
    (cat ++ " :".toList) :: [] :: [] :: [] ::
      (sortByName bucket).foldl (fun a p => a ++ [seriesLine p.1 p.2.chapter, [], [], []]) []
      ++ [SEPLINE, [], [], []]

/-- Drop the trailing blank lines (the `while output_lines[-1] == ""` loop). -/
def trimTrailBlank (ls : List Str) : List Str :=
  (ls.reverse.dropWhile List.isEmpty).reverse

/-- `format_data_to_text` of `export_series.py`: the fixed header, one block
per category in enumeration order, then pop trailing blank lines and one
trailing separator, and join with newlines. -/
def format_data_to_text (data : Store) : Str :=
  if data.isEmpty then
    "Lecture:\n\n--------------------------------------------\n\n[No series tracked]".toList
  else
    let headerLs : List Str := ["Lecture:".toList, [], [], [], SEPLINE, [], []]
    let body := CATEGORIES.foldl (fun acc cat => acc ++ catBlockLines data cat) headerLs
    let t1 := trimTrailBlank body
    let t2 := if t1.getLast? = some SEPLINE then t1.dropLast else t1
    joinNlL t2

/-! ### Views of the decoder loop used by the theorems -/

/-- The (name, chapter) pair a line writes into the store, if any: the line
survives the skip checks, is not colon-terminated, matches the series regex
and its chapter parses with `float`. -/
def lineWrite (l : Str) : Option (Str × PyFloat) :=
  let s := pyStripL l
  if s.isEmpty || hasSub sepTok s then none
  else if s.getLast? = some ':' then none
  else
    match seriesSplit [] s with
    | some (g1, g2) =>
      (match pyFloat (pyStripL g2) with
       | some v => some (pyStripL g1, v)
       | none => none)
    | none => none

/-- The category-state transition of one decoder iteration. -/
def catStep (c : Str) (l : Str) : Str :=
  let s := pyStripL l
  if s.isEmpty || hasSub sepTok s then c
  else if s.getLast? = some ':' then
    (let nm := pyStripL (s.takeWhile (fun c => c != ':'))
     if CATEGORIES.contains nm then nm else c)
  else c

/-- The active category after a list of lines. -/
def catFold (ls : List Str) (c : Str) : Str := ls.foldl catStep c

/-- Does this line switch the active category? -/
def isCatSwitch (l : Str) : Bool :=
  let s := pyStripL l
  !(s.isEmpty || hasSub sepTok s) && (s.getLast? == some ':') &&
    CATEGORIES.contains (pyStripL (s.takeWhile (fun c => c != ':')))

/-- Insert every record of `recs` with the fixed category `cat`. -/
def insertAllCat (recs : Store) (cat : Str) (st : Store) : Store :=
  recs.foldl (fun s p => dictInsert s p.1 ⟨p.2.chapter, cat⟩) st

/-! ### The exporter as the specification describes it (for refinement) -/

/-- One category block as the spec describes it: nothing when no record has
this category, else the header, the records sorted by lowercased name, and
the separator, each emitted line followed by the blank-line padding. -/
def specBlock (data : Store) (cat : Str) : List Str :=
  let recs := sortByName (data.filter (fun p => effCat p.2 = cat))
  if recs.isEmpty then []
  else
    (cat ++ " :".toList) :: [] :: [] :: [] ::
      (recs.flatMap (fun p => [seriesLine p.1 p.2.chapter, [], [], []]) ++
        [SEPLINE, [], [], []])

/-- All lines of the exported document: the title header, one block per
category in enumeration order, then trailing blank lines removed and one
trailing separator removed. -/
def specLines (data : Store) : List Str :=
  let t1 := trimTrailBlank
    (["Lecture:".toList, [], [], [], SEPLINE, [], []] ++
      CATEGORIES.flatMap (specBlock data))
  if t1.getLast? = some SEPLINE then t1.dropLast else t1

/-- The exported text in the spec-shaped form. -/
def encodeSpecText (data : Store) : Str :=
  if data.isEmpty then
    "Lecture:\n\n--------------------------------------------\n\n[No series tracked]".toList
  else joinNlL (specLines data)

/-! ### Cleanliness side conditions for the round trip -/

/-- A series name that survives the text format: nonempty, already
stripped, on one line, and not producing the skip token `-----` even when
the separator dash is appended. -/
def cleanName (n : Str) : Prop :=
  n ≠ [] ∧ pyStripL n = n ∧ '\n' ∉ n ∧ hasSub sepTok (n ++ ['-']) = false

/-- A chapter value whose printed form the importer reads back: a finite
nonnegative rational with a finite decimal expansion, in the range that
Python prints in plain (non-scientific) notation. -/
def plainChapter : PyFloat → Bool
  | .finite q =>
    decide (0 ≤ q) && decide ((q * 10 ^ q.den).den = 1) &&
      (decide (q = 0) || (decide (1 / 10000 ≤ q) && decide (q < 10 ^ 16)))
  | _ => false

/-- Is the chapter a nonnegative real number (what the spec claims is an
invariant of the store)? -/
def nonnegRealChapter : PyFloat → Bool
  | .finite q => decide (0 ≤ q)
  | _ => false

/-- The store obtained by inserting, for each category of `cats` in order,
all records of `S` grouped under it (sorted as the exporter sorts them). -/
def specStoreFold (S : Store) (cats : List Str) (st : Store) : Store :=
  cats.foldl (fun acc cat =>
    insertAllCat (sortByName (S.filter (fun p => effCat p.2 = cat))) cat acc) st

/-! ### Basic lemmas about the store -/

theorem lookupS_dictInsert_self (st : Store) (n : Str) (v : SeriesInfo) :
    lookupS (dictInsert st n v) n = some v := by
  induction st with
  | nil => simp [dictInsert, lookupS]
  | cons p st ih =>
    by_cases h : p.1 = n
    · simp [dictInsert, h, lookupS]
    · simp [dictInsert, h, lookupS, ih]

theorem lookupS_dictInsert_ne (st : Store) (n m : Str) (v : SeriesInfo)
    (h : m ≠ n) : lookupS (dictInsert st n v) m = lookupS st m := by
  induction st with
  | nil => simp [dictInsert, lookupS, Ne.symm h]
  | cons p st ih =>
    by_cases hp : p.1 = n
    · simp [dictInsert, hp, lookupS, Ne.symm h, hp ▸ Ne.symm h]
    · simp only [dictInsert, hp, if_false]
      by_cases hm : p.1 = m <;> simp [lookupS, hm, ih]

theorem mem_dictInsert (st : Store) (n : Str) (v : SeriesInfo) (p : Str × SeriesInfo)
    (h : p ∈ dictInsert st n v) : p = (n, v) ∨ p ∈ st := by
  induction st with
  | nil => simpa [dictInsert] using h
  | cons q st ih =>
    by_cases hq : q.1 = n
    · simp only [dictInsert, hq, if_true] at h
      rcases List.mem_cons.1 h with h | h
      · exact Or.inl h
      · exact Or.inr (List.mem_cons_of_mem _ h)
    · simp only [dictInsert, hq, if_false] at h
      rcases List.mem_cons.1 h with h | h
      · exact Or.inr (h ▸ List.mem_cons_self _ _)
      · rcases ih h with h | h
        · exact Or.inl h
        · exact Or.inr (List.mem_cons_of_mem _ h)

theorem lookupS_eq_none_iff (st : Store) (n : Str) :
    lookupS st n = none ↔ n ∉ st.map Prod.fst := by
  induction st with
  | nil => simp [lookupS]
  | cons p st ih =>
    by_cases h : p.1 = n
    · simp [lookupS, h]
    · simp [lookupS, h, ih, Ne.symm h]

theorem lookupS_eq_of_mem_nodup (st : Store) (n : Str) (i : SeriesInfo)
    (hn : (st.map Prod.fst).Nodup) (h : (n, i) ∈ st) : lookupS st n = some i := by
  induction st with
  | nil => simp at h
  | cons p st ih =>
    simp only [List.map_cons, List.nodup_cons] at hn
    rcases List.mem_cons.1 h with h | h
    · simp [← h, lookupS]
    · have hp : p.1 ≠ n := by
        intro hpn
        exact hn.1 (by rw [hpn]; exact List.mem_map.2 ⟨(n, i), h, rfl⟩)
      simp [lookupS, hp, ih hn.2 h]

/-! ### takeWhile, dropWhile and strip helpers -/

theorem takeWhile_all_append (p : Char → Bool) (a : Str) (c : Char) (b : Str)
    (ha : ∀ x ∈ a, p x = true) (hc : p c = false) :
    (a ++ c :: b).takeWhile p = a := by
  induction a with
  | nil => simp [List.takeWhile_cons, hc]
  | cons x a ih =>
    have hx := ha x (List.mem_cons_self _ _)
    simp [List.takeWhile_cons, hx, ih (fun y hy => ha y (List.mem_cons_of_mem _ hy))]

theorem dropWhile_all_append (p : Char → Bool) (a : Str) (c : Char) (b : Str)
    (ha : ∀ x ∈ a, p x = true) (hc : p c = false) :
    (a ++ c :: b).dropWhile p = c :: b := by
  induction a with
  | nil => simp [List.dropWhile_cons, hc]
  | cons x a ih =>
    have hx := ha x (List.mem_cons_self _ _)
    simp [List.dropWhile_cons, hx, ih (fun y hy => ha y (List.mem_cons_of_mem _ hy))]

theorem takeWhile_all_self (p : Char → Bool) (a : Str) (ha : ∀ x ∈ a, p x = true) :
    a.takeWhile p = a := by
  induction a with
  | nil => rfl
  | cons x a ih =>
    have hx := ha x (List.mem_cons_self _ _)
    simp [List.takeWhile_cons, hx, ih (fun y hy => ha y (List.mem_cons_of_mem _ hy))]

theorem dropWhile_all_self (p : Char → Bool) (a : Str) (ha : ∀ x ∈ a, p x = true) :
    a.dropWhile p = [] := by
  induction a with
  | nil => rfl
  | cons x a ih =>
    have hx := ha x (List.mem_cons_self _ _)
    simp [List.dropWhile_cons, hx, ih (fun y hy => ha y (List.mem_cons_of_mem _ hy))]

theorem dropWhile_head_false (p : Char → Bool) (c : Char) (l : Str)
    (hc : p c = false) : (c :: l).dropWhile p = c :: l := by
  simp [List.dropWhile_cons, hc]

theorem dropWhile_all_false (p : Char → Bool) (l : Str)
    (h : ∀ c ∈ l, p c = false) : l.dropWhile p = l := by
  induction l with
  | nil => rfl
  | cons c t ih =>
    have hc := h c (List.mem_cons_self _ _)
    simp [List.dropWhile_cons, hc,
      ih (fun y hy => h y (List.mem_cons_of_mem _ hy))]

/-- A string all of whose characters are non-whitespace strips to itself. -/
theorem pyStripL_all_not_ws (l : Str) (h : ∀ c ∈ l, pyWs c = false) :
    pyStripL l = l := by
  unfold pyStripL
  rw [dropWhile_all_false pyWs l h,
    dropWhile_all_false pyWs l.reverse (fun c hc => h c (List.mem_reverse.1 hc)),
    List.reverse_reverse]

/-- A nonempty string whose first and last characters are non-whitespace
strips to itself. -/
theorem pyStripL_eq_self_of_ends (l : Str)
    (h1 : ∀ c, l.head? = some c → pyWs c = false)
    (h2 : ∀ c, l.getLast? = some c → pyWs c = false) :
    pyStripL l = l := by
  cases l with
  | nil => rfl
  | cons a t =>
    have ha : pyWs a = false := h1 a rfl
    unfold pyStripL
    rw [dropWhile_head_false _ _ _ ha]
    cases hlr : (a :: t).reverse with
    | nil => simp at hlr
    | cons c r =>
      have hc : ((a :: t).reverse).head? = some c := by rw [hlr]; rfl
      rw [List.head?_reverse] at hc
      have hcw := h2 c hc
      rw [dropWhile_head_false _ _ _ hcw, ← hlr, List.reverse_reverse]

theorem length_dropWhile_le' (p : Char → Bool) (l : Str) :
    (l.dropWhile p).length ≤ l.length :=
  (List.dropWhile_suffix p).sublist.length_le

/-- If dropWhile changes nothing on a nonempty list, its head fails the
predicate. -/
theorem head_false_of_dropWhile_self (p : Char → Bool) (l : Str) (hne : l ≠ [])
    (h : l.dropWhile p = l) : p (l.head hne) = false := by
  cases l with
  | nil => exact absurd rfl hne
  | cons c t =>
    by_cases hc : p c = true
    · exfalso
      rw [List.dropWhile_cons, if_pos hc] at h
      have := congrArg List.length h
      have hle := length_dropWhile_le' p t
      simp at this
      omega
    · simpa [List.head_cons] using hc

/-- A string that strips to itself and is nonempty has non-whitespace ends. -/
theorem ends_not_ws_of_pyStripL_self (l : Str) (hne : l ≠ [])
    (h : pyStripL l = l) :
    pyWs (l.head hne) = false ∧ pyWs (l.getLast hne) = false := by
  have hlen1 : ((l.dropWhile pyWs).reverse.dropWhile pyWs).length ≤
      (l.dropWhile pyWs).length := by
    have := length_dropWhile_le' pyWs (l.dropWhile pyWs).reverse
    simpa using this
  have hlen2 : (l.dropWhile pyWs).length ≤ l.length := length_dropWhile_le' pyWs l
  have hlenS : (pyStripL l).length = l.length := by rw [h]
  have hlenS' : ((l.dropWhile pyWs).reverse.dropWhile pyWs).length = l.length := by
    unfold pyStripL at hlenS
    simpa using hlenS
  have hd : l.dropWhile pyWs = l :=
    (List.dropWhile_suffix pyWs).eq_of_length (by omega)
  have hstrip2 : l.reverse.dropWhile pyWs = l.reverse := by
    have : (l.reverse.dropWhile pyWs).length = l.reverse.length := by
      rw [hd] at hlenS'
      simpa using hlenS'
    exact (List.dropWhile_suffix pyWs).eq_of_length this
  refine ⟨head_false_of_dropWhile_self pyWs l hne hd, ?_⟩
  have hr : l.reverse ≠ [] := by simpa using hne
  have := head_false_of_dropWhile_self pyWs l.reverse hr hstrip2
  rwa [List.head_reverse] at this

/-! ### Decimal digit strings -/

theorem digitsVal_foldl (l : Str) (a : ℕ) :
    l.foldl (fun a c => 10 * a + digitVal c) a = a * 10 ^ l.length + digitsVal l := by
  induction l generalizing a with
  | nil => simp [digitsVal]
  | cons c t ih =>
    have hc : digitsVal (c :: t) = digitVal c * 10 ^ t.length + digitsVal t := by
      have h0 : digitsVal (c :: t) =
          t.foldl (fun a c => 10 * a + digitVal c) (10 * 0 + digitVal c) := rfl
      rw [h0, ih (10 * 0 + digitVal c)]
      ring
    simp only [List.foldl_cons]
    rw [ih (10 * a + digitVal c), hc, List.length_cons]
    ring

theorem digitsVal_append (l1 l2 : Str) :
    digitsVal (l1 ++ l2) = digitsVal l1 * 10 ^ l2.length + digitsVal l2 := by
  unfold digitsVal
  rw [List.foldl_append]
  exact digitsVal_foldl l2 _

theorem digitChar_facts (n : ℕ) (h : n < 10) :
    Char.ofNat (48 + n) ∈ digits10 ∧ digitVal (Char.ofNat (48 + n)) = n := by
  interval_cases n <;> exact ⟨by decide, by decide⟩

/-- All the facts needed about `natCharsAux` with sufficient fuel: its
characters are decimal digits, it reads back to its input, and it is
nonempty. -/
theorem natCharsAux_spec : ∀ fuel n, n < fuel →
    (∀ c ∈ natCharsAux fuel n, c ∈ digits10) ∧
      digitsVal (natCharsAux fuel n) = n ∧ natCharsAux fuel n ≠ [] := by
  intro fuel
  induction fuel with
  | zero => intro n h; omega
  | succ fuel ih =>
    intro n h
    by_cases h10 : n < 10
    · obtain ⟨hmem, hval⟩ := digitChar_facts n h10
      refine ⟨?_, ?_, by simp [natCharsAux, h10]⟩
      · intro c hc
        simp only [natCharsAux, h10, if_true, List.mem_singleton] at hc
        exact hc ▸ hmem
      · simp [natCharsAux, h10, digitsVal, hval]
    · have hdiv : n / 10 < fuel := by omega
      obtain ⟨ihm, ihv, ihne⟩ := ih (n / 10) hdiv
      have hm := digitChar_facts (n % 10) (Nat.mod_lt n (by omega))
      refine ⟨?_, ?_, ?_⟩
      · intro c hc
        simp only [natCharsAux, h10, if_false, List.mem_append,
          List.mem_singleton] at hc
        rcases hc with hc | hc
        · exact ihm c hc
        · exact hc ▸ hm.1
      · simp only [natCharsAux, h10, if_false]
        rw [digitsVal_append, ihv]
        have : digitsVal [Char.ofNat (48 + n % 10)] = n % 10 := by
          unfold digitsVal
          simp [hm.2]
        rw [this]
        simp only [List.length_singleton, pow_one]
        omega
      · simp [natCharsAux, h10]

theorem natChars_mem (n : ℕ) : ∀ c ∈ natChars n, c ∈ digits10 :=
  (natCharsAux_spec (n + 1) n (by omega)).1

theorem digitsVal_natChars (n : ℕ) : digitsVal (natChars n) = n :=
  (natCharsAux_spec (n + 1) n (by omega)).2.1

theorem natChars_ne_nil (n : ℕ) : natChars n ≠ [] :=
  (natCharsAux_spec (n + 1) n (by omega)).2.2

theorem natCharsAux_length_le : ∀ fuel n k, n < fuel → 1 ≤ k → n < 10 ^ k →
    (natCharsAux fuel n).length ≤ k := by
  intro fuel
  induction fuel with
  | zero => intro n k h; omega
  | succ fuel ih =>
    intro n k h hk hnk
    by_cases h10 : n < 10
    · simp only [natCharsAux, h10, if_true, List.length_singleton]
      omega
    · have hk2 : 2 ≤ k := by
        by_contra hco
        have hk1 : k = 1 := by omega
        rw [hk1] at hnk
        simp at hnk
        omega
      have hdivfuel : n / 10 < fuel := by omega
      have hdivk : n / 10 < 10 ^ (k - 1) := by
        rw [Nat.div_lt_iff_lt_mul (by omega)]
        have hpow : 10 ^ (k - 1) * 10 = 10 ^ k := by
          rw [← pow_succ]
          congr 1
          omega
        omega
      have := ih (n / 10) (k - 1) hdivfuel (by omega) hdivk
      simp only [natCharsAux, h10, if_false, List.length_append,
        List.length_singleton]
      omega

theorem natChars_length_le (n k : ℕ) (hk : 1 ≤ k) (h : n < 10 ^ k) :
    (natChars n).length ≤ k :=
  natCharsAux_length_le (n + 1) n k (by omega) hk h

theorem fracChars_mem (b k : ℕ) : ∀ c ∈ fracChars b k, c ∈ digits10 := by
  intro c hc
  unfold fracChars at hc
  rcases List.mem_append.1 hc with hc | hc
  · rw [List.eq_of_mem_replicate hc]
    decide
  · exact natChars_mem b c hc

theorem fracChars_length (b k : ℕ) (hk : 1 ≤ k) (hb : b < 10 ^ k) :
    (fracChars b k).length = k := by
  unfold fracChars
  have := natChars_length_le b k hk hb
  simp only [List.length_append, List.length_replicate]
  omega

theorem digitsVal_replicate_zero (j : ℕ) :
    digitsVal (List.replicate j '0') = 0 := by
  induction j with
  | zero => rfl
  | succ j ih =>
    have hb : 10 * 0 + digitVal '0' = 0 := by decide
    have hz : digitsVal ('0' :: List.replicate j '0') =
        digitsVal (List.replicate j '0') := by
      calc digitsVal ('0' :: List.replicate j '0')
          = (List.replicate j '0').foldl (fun a c => 10 * a + digitVal c)
              (10 * 0 + digitVal '0') := rfl
        _ = (List.replicate j '0').foldl (fun a c => 10 * a + digitVal c) 0 := by
              rw [hb]
        _ = digitsVal (List.replicate j '0') := rfl
    simpa [hz] using ih

theorem digitsVal_fracChars (b k : ℕ) : digitsVal (fracChars b k) = b := by
  unfold fracChars
  rw [digitsVal_append, digitsVal_replicate_zero, digitsVal_natChars]
  simp


/-! ### Character-class facts (by computation on the ten digits) -/

theorem digits10_isDigit : ∀ c ∈ digits10, c.isDigit = true := by decide

theorem digits10_digitDot : ∀ c ∈ digits10, digitDot c = true := by decide

theorem dotDigits_not_ws : ∀ c ∈ '.' :: digits10, pyWs c = false := by decide

theorem dotDigits_ne_us : ∀ c ∈ '.' :: digits10, c ≠ '_' := by decide

theorem dotDigits_digitDot : ∀ c ∈ '.' :: digits10, digitDot c = true := by decide

theorem dotDigits_ne_nl : ∀ c ∈ '.' :: digits10, c ≠ '\n' := by decide

theorem dotDigits_ne_dash : ∀ c ∈ '.' :: digits10, c ≠ '-' := by decide

theorem digits10_not_sign : ∀ c ∈ digits10, c ≠ '+' ∧ c ≠ '-' := by decide

theorem digits10_lower_ne : ∀ c ∈ digits10, c.toLower ≠ 'i' ∧ c.toLower ≠ 'n' := by decide

theorem digits10_ne_colon : ∀ c ∈ digits10, c ≠ ':' := by decide

/-! ### The decimal scale search -/

theorem decScale_den (q : ℚ) (h : (q * 10 ^ q.den).den = 1) :
    (q * 10 ^ decScale q).den = 1 := by
  unfold decScale
  cases hh : ((List.range (q.den + 1)).filter (fun k => (q * 10 ^ k).den == 1)).head? with
  | none =>
    exfalso
    rw [List.head?_eq_none_iff] at hh
    have hmem : q.den ∈ (List.range (q.den + 1)).filter
        (fun k => (q * 10 ^ k).den == 1) :=
      List.mem_filter.2 ⟨List.mem_range.2 (by omega), by simpa using h⟩
    rw [hh] at hmem
    simp at hmem
  | some k =>
    have hk : k ∈ (List.range (q.den + 1)).filter (fun k => (q * 10 ^ k).den == 1) := by
      cases hfl : (List.range (q.den + 1)).filter (fun k => (q * 10 ^ k).den == 1) with
      | nil => rw [hfl] at hh; simp at hh
      | cons a t =>
        rw [hfl] at hh
        simp only [List.head?_cons, Option.some.injEq] at hh
        rw [← hh]
        exact List.mem_cons_self a t
    have := (List.mem_filter.1 hk).2
    simp only [Option.getD_some]
    simpa using this

/-! ### Reading back the printed decimal form -/

theorem usOkAux_no_us (p : Char) (l : Str) (h : ∀ c ∈ l, c ≠ '_') :
    usOkAux p l = true := by
  induction l generalizing p with
  | nil => rfl
  | cons c rest ih =>
    have hc := h c (List.mem_cons_self _ _)
    simp only [usOkAux, hc, if_neg hc]
    exact ih c (fun y hy => h y (List.mem_cons_of_mem _ hy))

theorem usOk_no_us (l : Str) (h : ∀ c ∈ l, c ≠ '_') : usOk l = true := by
  cases l with
  | nil => rfl
  | cons c rest =>
    have hc := h c (List.mem_cons_self _ _)
    simp only [usOk, Bool.and_eq_true, bne_iff_ne, ne_eq]
    exact ⟨hc, usOkAux_no_us c rest (fun y hy => h y (List.mem_cons_of_mem _ hy))⟩

theorem natChars_head_digit (n : ℕ) :
    ∃ c t, natChars n = c :: t ∧ c ∈ digits10 := by
  cases h : natChars n with
  | nil => exact absurd h (natChars_ne_nil n)
  | cons c t =>
    refine ⟨c, t, rfl, ?_⟩
    exact natChars_mem n c (h ▸ List.mem_cons_self c t)

theorem natChars_getLast_digit (n : ℕ) :
    ∃ c, (natChars n).getLast? = some c ∧ c ∈ digits10 := by
  refine ⟨(natChars n).getLast (natChars_ne_nil n),
    List.getLast?_eq_getLast _ _, ?_⟩
  exact natChars_mem n _ (List.getLast_mem _)

/-- The printed decimal form of a nonnegative rational. -/
theorem pyReprQ_nonneg_eq (q : ℚ) (h0 : 0 ≤ q) :
    pyReprQ q =
      (if decScale q = 0 then
         natChars ((q * 10 ^ decScale q).num.toNat) ++ ['.', '0']
       else
         natChars ((q * 10 ^ decScale q).num.toNat / 10 ^ decScale q) ++
           '.' :: fracChars ((q * 10 ^ decScale q).num.toNat % 10 ^ decScale q)
             (decScale q)) := by
  simp only [pyReprQ]
  rw [abs_of_nonneg h0, if_neg (not_lt.2 h0)]
  by_cases hk : decScale q = 0 <;> simp [hk]

theorem pyReprQ_mem (q : ℚ) (h0 : 0 ≤ q) :
    ∀ c ∈ pyReprQ q, c ∈ '.' :: digits10 := by
  intro c hc
  rw [pyReprQ_nonneg_eq q h0] at hc
  by_cases hk : decScale q = 0
  · rw [if_pos hk] at hc
    rcases List.mem_append.1 hc with hc | hc
    · exact List.mem_cons_of_mem _ (natChars_mem _ c hc)
    · rcases List.mem_cons.1 hc with hc | hc
      · subst hc
        exact List.mem_cons_self _ _
      · simp only [List.mem_singleton] at hc
        subst hc
        decide
  · rw [if_neg hk] at hc
    rcases List.mem_append.1 hc with hc | hc
    · exact List.mem_cons_of_mem _ (natChars_mem _ c hc)
    · rcases List.mem_cons.1 hc with hc | hc
      · subst hc
        exact List.mem_cons_self _ _
      · exact List.mem_cons_of_mem _ (fracChars_mem _ _ c hc)

theorem pyReprQ_head_digit (q : ℚ) (h0 : 0 ≤ q) :
    ∃ c t, pyReprQ q = c :: t ∧ c ∈ digits10 := by
  rw [pyReprQ_nonneg_eq q h0]
  by_cases hk : decScale q = 0
  · rw [if_pos hk]
    obtain ⟨c, t, hct, hcd⟩ := natChars_head_digit ((q * 10 ^ decScale q).num.toNat)
    exact ⟨c, t ++ ['.', '0'], by rw [hct]; rfl, hcd⟩
  · rw [if_neg hk]
    obtain ⟨c, t, hct, hcd⟩ := natChars_head_digit
      ((q * 10 ^ decScale q).num.toNat / 10 ^ decScale q)
    exact ⟨c, t ++ '.' :: fracChars _ _, by rw [hct]; rfl, hcd⟩

theorem pyReprQ_getLast_digit (q : ℚ) (h0 : 0 ≤ q) :
    ∃ c, (pyReprQ q).getLast? = some c ∧ c ∈ digits10 := by
  rw [pyReprQ_nonneg_eq q h0]
  by_cases hk : decScale q = 0
  · rw [if_pos hk]
    refine ⟨'0', ?_, by decide⟩
    rw [List.getLast?_append]
    rfl
  · rw [if_neg hk]
    obtain ⟨c, hc, hcd⟩ := natChars_getLast_digit
      ((q * 10 ^ decScale q).num.toNat % 10 ^ decScale q)
    refine ⟨c, ?_, hcd⟩
    rw [List.getLast?_append]
    have : ('.' :: fracChars ((q * 10 ^ decScale q).num.toNat % 10 ^ decScale q)
        (decScale q)).getLast? = some c := by
      have hfrac : fracChars ((q * 10 ^ decScale q).num.toNat % 10 ^ decScale q)
          (decScale q) = List.replicate _ '0' ++ natChars _ := rfl
      rw [show ('.' :: fracChars ((q * 10 ^ decScale q).num.toNat % 10 ^ decScale q)
        (decScale q)) = ['.'] ++ List.replicate ((decScale q) -
          (natChars ((q * 10 ^ decScale q).num.toNat % 10 ^ decScale q)).length) '0' ++
          natChars ((q * 10 ^ decScale q).num.toNat % 10 ^ decScale q) from rfl]
      rw [List.getLast?_append, hc]
      rfl
    rw [this]
    rfl

/-- The decimal grammar reads the printed form of a nonnegative
decimal-representable rational back to the same value. -/
theorem pyFloatCore_pyReprQ (q : ℚ) (h0 : 0 ≤ q) (hd : (q * 10 ^ q.den).den = 1) :
    pyFloatCore (pyReprQ q) = some q := by
  have hden := decScale_den q hd
  set k := decScale q with hkdef
  set m := (q * 10 ^ k).num.toNat with hmdef
  have hnum : 0 ≤ (q * 10 ^ k).num := Rat.num_nonneg.2 (by positivity)
  have hqk : (m : ℚ) = q * 10 ^ k := by
    have h1 : ((q * 10 ^ k).num : ℚ) = q * 10 ^ k := (Rat.den_eq_one_iff _).1 hden
    have h2 : ((m : ℤ) : ℚ) = ((q * 10 ^ k).num : ℚ) := by
      rw [hmdef, Int.toNat_of_nonneg hnum]
    exact_mod_cast h2.trans h1
  have h10 : (10 : ℚ) ^ k ≠ 0 := by positivity
  have hq : q = (m : ℚ) / 10 ^ k := by
    rw [hqk]
    field_simp
  have hEmp : (natChars ((q * 10 ^ k).num.toNat / 10 ^ k)).isEmpty = false := by
    cases h : natChars ((q * 10 ^ k).num.toNat / 10 ^ k) with
    | nil => exact absurd h (natChars_ne_nil _)
    | cons c t => rfl
  have hEmp0 : (natChars ((q * 10 ^ k).num.toNat)).isEmpty = false := by
    cases h : natChars ((q * 10 ^ k).num.toNat) with
    | nil => exact absurd h (natChars_ne_nil _)
    | cons c t => rfl
  by_cases hk0 : k = 0
  · have hrep : pyReprQ q = natChars m ++ '.' :: ['0'] := by
      rw [pyReprQ_nonneg_eq q h0, if_pos hk0]
    have hdig : ∀ x ∈ natChars m, Char.isDigit x = true :=
      fun x hx => digits10_isDigit x (natChars_mem m x hx)
    have hipT : (natChars m ++ '.' :: ['0']).takeWhile Char.isDigit = natChars m :=
      takeWhile_all_append _ _ '.' _ hdig (by decide)
    have hipD : (natChars m ++ '.' :: ['0']).dropWhile Char.isDigit = '.' :: ['0'] :=
      dropWhile_all_append _ _ '.' _ hdig (by decide)
    have h1 : (['0'] : Str).takeWhile Char.isDigit = ['0'] := by decide
    have h2 : (['0'] : Str).dropWhile Char.isDigit = [] := by decide
    have hfv : fracVal ['0'] = 0 := by with_unfolding_all decide
    rw [hrep]
    simp only [pyFloatCore, hipT, hipD, h1, h2, hEmp0, hfv, digitsVal_natChars,
      Bool.false_and, Bool.and_self]
    have hqm : q = (m : ℚ) := by
      rw [hq, hk0]
      norm_num
    simp [hqm]
  · have hk1 : 1 ≤ k := by omega
    have hmodlt : m % 10 ^ k < 10 ^ k := Nat.mod_lt _ (by positivity)
    have hrep : pyReprQ q = natChars (m / 10 ^ k) ++ '.' :: fracChars (m % 10 ^ k) k := by
      rw [pyReprQ_nonneg_eq q h0, if_neg hk0]
    have hdig : ∀ x ∈ natChars (m / 10 ^ k), Char.isDigit x = true :=
      fun x hx => digits10_isDigit x (natChars_mem _ x hx)
    have hfdig : ∀ x ∈ fracChars (m % 10 ^ k) k, Char.isDigit x = true :=
      fun x hx => digits10_isDigit x (fracChars_mem _ _ x hx)
    have hipT : (natChars (m / 10 ^ k) ++ '.' :: fracChars (m % 10 ^ k) k).takeWhile
        Char.isDigit = natChars (m / 10 ^ k) :=
      takeWhile_all_append _ _ '.' _ hdig (by decide)
    have hipD : (natChars (m / 10 ^ k) ++ '.' :: fracChars (m % 10 ^ k) k).dropWhile
        Char.isDigit = '.' :: fracChars (m % 10 ^ k) k :=
      dropWhile_all_append _ _ '.' _ hdig (by decide)
    have hfpT : (fracChars (m % 10 ^ k) k).takeWhile Char.isDigit =
        fracChars (m % 10 ^ k) k := takeWhile_all_self _ _ hfdig
    have hfpD : (fracChars (m % 10 ^ k) k).dropWhile Char.isDigit = [] :=
      dropWhile_all_self _ _ hfdig
    have hfv : fracVal (fracChars (m % 10 ^ k) k) = ((m % 10 ^ k : ℕ) : ℚ) / 10 ^ k := by
      unfold fracVal
      rw [digitsVal_fracChars, fracChars_length _ _ hk1 hmodlt]
    rw [hrep]
    simp only [pyFloatCore, hipT, hipD, hfpT, hfpD, hEmp, hfv, digitsVal_natChars,
      Bool.false_and, Bool.and_self]
    have hval : ((m / 10 ^ k : ℕ) : ℚ) + ((m % 10 ^ k : ℕ) : ℚ) / 10 ^ k = q := by
      rw [hq]
      field_simp
      have := Nat.div_add_mod m (10 ^ k)
      calc ((m / 10 ^ k : ℕ) : ℚ) * 10 ^ k + ((m % 10 ^ k : ℕ) : ℚ)
          = ((10 ^ k * (m / 10 ^ k) + m % 10 ^ k : ℕ) : ℚ) := by push_cast; ring
        _ = ((m : ℕ) : ℚ) := by rw [this]
    simp [hval]


/-- `float(str(x))` recovers a nonnegative decimal-representable finite
float exactly. -/
theorem pyFloat_pyReprQ (q : ℚ) (h0 : 0 ≤ q) (hd : (q * 10 ^ q.den).den = 1) :
    pyFloat (pyReprQ q) = some (.finite q) := by
  have hmem := pyReprQ_mem q h0
  have hstrip : pyStripL (pyReprQ q) = pyReprQ q :=
    pyStripL_all_not_ws _ (fun c hc => dotDigits_not_ws c (hmem c hc))
  obtain ⟨c0, t0, hct, hc0d⟩ := pyReprQ_head_digit q h0
  have hsign : signSplit (pyReprQ q) = (false, pyReprQ q) := by
    rw [hct]
    have hns := digits10_not_sign c0 hc0d
    simp [signSplit, hns.1, hns.2]
  have hlowne : ∀ (s : Str), s.head? = some 'i' ∨ s.head? = some 'n' →
      (pyReprQ q).map Char.toLower ≠ s := by
    intro s hs heq
    have hh : ((pyReprQ q).map Char.toLower).head? = s.head? := by rw [heq]
    rw [hct] at hh
    simp only [List.map_cons, List.head?_cons] at hh
    have hlow := digits10_lower_ne c0 hc0d
    rcases hs with hs | hs <;> rw [hs] at hh <;>
      simp only [Option.some.injEq] at hh
    · exact hlow.1 hh
    · exact hlow.2 hh
  have hne1 : (pyReprQ q).map Char.toLower ≠ "inf".toList :=
    hlowne _ (Or.inl rfl)
  have hne2 : (pyReprQ q).map Char.toLower ≠ "infinity".toList :=
    hlowne _ (Or.inl rfl)
  have hne3 : (pyReprQ q).map Char.toLower ≠ "nan".toList :=
    hlowne _ (Or.inr rfl)
  have hus : usOk (pyReprQ q) = true :=
    usOk_no_us _ (fun c hc => dotDigits_ne_us c (hmem c hc))
  have hfil : (pyReprQ q).filter (fun c => c != '_') = pyReprQ q :=
    List.filter_eq_self.2 (fun c hc => by
      simpa using dotDigits_ne_us c (hmem c hc))
  have hcore := pyFloatCore_pyReprQ q h0 hd
  simp only [pyFloat, hstrip, hsign, hne1, hne2, hne3, hus, hfil, hcore,
    if_false, if_true, or_self, Bool.false_eq_true, ite_false, ite_true]
  simp


/-! ### The series-line regex on emitted lines -/

theorem digitDot_not_ws (c : Char) (h : digitDot c = true) : pyWs c = false := by
  by_contra hws
  have hws' : pyWs c = true := by simpa using hws
  unfold pyWs at hws'
  simp only [Bool.or_eq_true, beq_iff_eq] at hws'
  rcases hws' with ((((h1 | h1) | h1) | h1) | h1) | h1 <;> subst h1 <;>
    exact absurd h (by decide)

theorem all_ws_of_dropWhile_nil (p : Char → Bool) (l : Str)
    (h : l.dropWhile p = []) : ∀ x ∈ l, p x = true := by
  induction l with
  | nil => intro x hx; simp at hx
  | cons c t ih =>
    intro x hx
    by_cases hc : p c = true
    · rw [List.dropWhile_cons, if_pos hc] at h
      rcases List.mem_cons.1 hx with rfl | hx
      · exact hc
      · exact ih h x hx
    · rw [List.dropWhile_cons, if_neg hc] at h
      simp at h

theorem mem_dropWhile_of_not (p : Char → Bool) (l : Str) (x : Char)
    (hx : x ∈ l) (hpx : p x = false) : x ∈ l.dropWhile p := by
  induction l with
  | nil => simp at hx
  | cons c t ih =>
    by_cases hc : p c = true
    · rw [List.dropWhile_cons, if_pos hc]
      rcases List.mem_cons.1 hx with rfl | hx'
      · rw [hc] at hpx; simp at hpx
      · exact ih hx'
    · rw [List.dropWhile_cons, if_neg hc]
      exact hx

theorem dropWhile_append_left (p : Char → Bool) (l1 l2 : Str)
    (h : l1.dropWhile p ≠ []) :
    (l1 ++ l2).dropWhile p = l1.dropWhile p ++ l2 := by
  induction l1 with
  | nil => exact absurd rfl h
  | cons c t ih =>
    by_cases hc : p c = true
    · rw [List.dropWhile_cons, if_pos hc] at h ⊢
      rw [List.cons_append, List.dropWhile_cons, if_pos hc]
      exact ih h
    · rw [List.dropWhile_cons, if_neg hc]
      rw [List.cons_append, List.dropWhile_cons, if_neg hc]

/-- The tail pattern matches at the start of the emitted separator. -/
theorem sepMatch_emitted (d : Str) (hne : d ≠ []) (hd : d.all digitDot = true) :
    sepMatch ("- ep: ".toList ++ d) = some d := by
  have hdds : ∀ c ∈ d, digitDot c = true := List.all_eq_true.1 hd
  have hdw : d.dropWhile pyWs = d := by
    cases d with
    | nil => rfl
    | cons c t =>
      exact dropWhile_head_false _ _ _
        (digitDot_not_ws c (hdds c (List.mem_cons_self c t)))
  have hie : d.isEmpty = false := by
    cases d with
    | nil => exact absurd rfl hne
    | cons c t => rfl
  have hsplit : ("- ep: ".toList ++ d) = '-' :: ' ' :: 'e' :: 'p' :: ':' :: ' ' :: d := rfl
  have h1 : ('-' :: ' ' :: 'e' :: 'p' :: ':' :: ' ' :: d).dropWhile pyWs =
      '-' :: ' ' :: 'e' :: 'p' :: ':' :: ' ' :: d :=
    dropWhile_head_false _ _ _ (by decide)
  have h2 : (' ' :: 'e' :: 'p' :: ':' :: ' ' :: d).dropWhile pyWs =
      'e' :: 'p' :: ':' :: ' ' :: d := by
    rw [List.dropWhile_cons, if_pos (by decide)]
    exact dropWhile_head_false _ _ _ (by decide)
  have h3 : (' ' :: d).dropWhile pyWs = d := by
    rw [List.dropWhile_cons, if_pos (by decide)]
    exact hdw
  rw [hsplit]
  unfold sepMatch
  rw [h1]
  simp only [sepMatchDash, if_pos rfl]
  rw [h2]
  simp only [sepMatchEp, and_self, if_true]
  rw [h3, hie, hd]
  simp

/-- The tail pattern cannot match while the lazy group is still inside the
series name: a candidate match would need everything after its `ep:` to be
digits and dots, but the real separator dash is still ahead. -/
theorem sepMatch_none_inside (u d : Str) (hu : u ≠ [])
    (hlast : ∀ x, u.getLast? = some x → pyWs x = false) :
    sepMatch (u ++ ("- ep: ".toList ++ d)) = none := by
  have hlast' : ∀ (s : Str), s ≠ [] → s.dropWhile pyWs = [] → s <:+ u → False := by
    intro s hs hdrop hsfx
    obtain ⟨w, hw⟩ := hsfx
    have hsl : s.getLast? = some (s.getLast hs) := List.getLast?_eq_getLast s hs
    have hlw : u.getLast? = some (s.getLast hs) := by
      rw [← hw, List.getLast?_append, hsl]
      rfl
    have hws : pyWs (s.getLast hs) = true :=
      all_ws_of_dropWhile_nil pyWs s hdrop _ (List.getLast_mem hs)
    rw [hlast _ hlw] at hws
    exact absurd hws (by simp)
  unfold sepMatch
  cases hdw : u.dropWhile pyWs with
  | nil => exact (hlast' u hu hdw List.suffix_rfl).elim
  | cons c u2 =>
    have hrw : (u ++ ("- ep: ".toList ++ d)).dropWhile pyWs =
        c :: (u2 ++ ("- ep: ".toList ++ d)) := by
      rw [dropWhile_append_left pyWs u _ (by rw [hdw]; simp), hdw]
      rfl
    rw [hrw]
    simp only [sepMatchDash]
    by_cases hc : c = '-'
    case neg => rw [if_neg hc]
    case pos =>
      rw [if_pos hc]
      have hsfx1 : (c :: u2) <:+ u := hdw ▸ List.dropWhile_suffix pyWs
      cases hdw2 : u2.dropWhile pyWs with
      | nil =>
        by_cases hu2 : u2 = []
        · subst hu2
          simp only [List.nil_append]
          have hsep : ("- ep: ".toList ++ d).dropWhile pyWs =
              '-' :: ' ' :: 'e' :: 'p' :: ':' :: ' ' :: d :=
            dropWhile_head_false _ _ _ (by decide)
          rw [hsep]
          simp only [sepMatchEp]
          rw [if_neg (by rintro ⟨h1, h2, h3⟩; exact absurd h1 (by decide))]
        · refine (hlast' u2 hu2 hdw2 ?_).elim
          obtain ⟨w, hw⟩ := hsfx1
          exact ⟨w ++ [c], by rw [← hw]; simp⟩
      | cons e u3 =>
        have hrw2 : (u2 ++ ("- ep: ".toList ++ d)).dropWhile pyWs =
            e :: (u3 ++ ("- ep: ".toList ++ d)) := by
          rw [dropWhile_append_left pyWs u2 _ (by rw [hdw2]; simp), hdw2]
          rfl
        rw [hrw2]
        rcases u3 with _ | ⟨f, u4⟩
        · rw [show ([] : Str) ++ ("- ep: ".toList ++ d) =
            '-' :: ' ' :: 'e' :: 'p' :: ':' :: ' ' :: d from rfl]
          simp only [sepMatchEp]
          rw [if_neg (by rintro ⟨h1, h2, h3⟩; exact absurd h2 (by decide))]
        · rcases u4 with _ | ⟨g, u5⟩
          · rw [show ([f] : Str) ++ ("- ep: ".toList ++ d) =
              f :: '-' :: ' ' :: 'e' :: 'p' :: ':' :: ' ' :: d from rfl]
            simp only [sepMatchEp]
            rw [if_neg (by rintro ⟨h1, h2, h3⟩; exact absurd h3 (by decide))]
          · rw [show (f :: g :: u5 : Str) ++ ("- ep: ".toList ++ d) =
              f :: g :: (u5 ++ ("- ep: ".toList ++ d)) from rfl]
            simp only [sepMatchEp]
            by_cases hepq : e = 'e' ∧ f = 'p' ∧ g = ':'
            · rw [if_pos hepq]
              have hdashmem : '-' ∈ (u5 ++ ("- ep: ".toList ++ d)).dropWhile pyWs := by
                apply mem_dropWhile_of_not pyWs _ _ _ (by decide)
                exact List.mem_append.2 (Or.inr (by simp))
              have hallf : ((u5 ++ ("- ep: ".toList ++ d)).dropWhile pyWs).all digitDot
                  = false := by
                rw [List.all_eq_false]
                exact ⟨'-', hdashmem, by decide⟩
              rw [hallf]
              simp
            · rw [if_neg hepq]


/-! ### The lazy regex on a whole emitted series line -/

theorem seriesSplit_app : ∀ (u : Str), ∀ (acc d : Str), u ≠ [] →
    (∀ x, u.getLast? = some x → pyWs x = false) → d ≠ [] → d.all digitDot = true →
    seriesSplit acc (u ++ ("- ep: ".toList ++ d)) = some (acc ++ u, d) := by
  intro u
  induction u with
  | nil => intro acc d hu; exact absurd rfl hu
  | cons c u' ih =>
    intro acc d _ hlast hd hdd
    by_cases hu' : u' = []
    · subst hu'
      rw [show ((([c] : Str)) ++ ("- ep: ".toList ++ d)) =
        c :: ("- ep: ".toList ++ d) from rfl]
      simp only [seriesSplit, sepMatch_emitted d hd hdd]
    · rw [show ((c :: u' : Str) ++ ("- ep: ".toList ++ d)) =
        c :: (u' ++ ("- ep: ".toList ++ d)) from rfl]
      have hlast' : ∀ x, u'.getLast? = some x → pyWs x = false := by
        intro x hx
        apply hlast
        cases u' with
        | nil => exact absurd rfl hu'
        | cons b t => rw [List.getLast?_cons_cons]; exact hx
      simp only [seriesSplit, sepMatch_none_inside u' d hu' hlast']
      rw [ih (acc ++ [c]) d hu' hlast' hd hdd]
      simp


/-! ### Characterizing one decoder iteration -/

/-- One decoder iteration in terms of the category transition and the
optional store write; a written record receives the category that was
active when its line was reached. -/
theorem decodeStep_eq (c : Str) (st : Store) (l : Str) :
    decodeStep (c, st) l =
      (catStep c l,
        match lineWrite l with
        | some (n, v) => dictInsert st n ⟨v, c⟩
        | none => st) := by
  unfold decodeStep catStep lineWrite
  by_cases h1 : ((pyStripL l).isEmpty || hasSub sepTok (pyStripL l)) = true
  · simp [h1]
  · simp only [h1, if_false, Bool.false_eq_true]
    by_cases h2 : (pyStripL l).getLast? = some ':'
    · simp only [h2, if_true, if_pos]
      split <;> rfl
    · simp only [h2, if_false]
      cases hs : seriesSplit [] (pyStripL l) with
      | none => simp [hs, h2]
      | some g =>
        cases hf : pyFloat (pyStripL g.2) with
        | none => simp [hs, hf, h2]
        | some v => simp [hs, hf, h2]

theorem catStep_of_not_switch (c : Str) (l : Str) (h : isCatSwitch l = false) :
    catStep c l = c := by
  unfold isCatSwitch at h
  unfold catStep
  by_cases h1 : ((pyStripL l).isEmpty || hasSub sepTok (pyStripL l)) = true
  · simp [h1]
  · simp only [h1, if_false, Bool.false_eq_true]
    by_cases h2 : (pyStripL l).getLast? = some ':'
    · simp only [h2, if_true, if_pos]
      have h1' : ((pyStripL l).isEmpty || hasSub sepTok (pyStripL l)) = false := by
        simpa using h1
      simp only [h1', h2, Bool.not_false, Bool.true_and, beq_self_eq_true,
        Bool.and_true] at h
      simp [h]
      intro hmem
      have h' : List.elem (pyStripL (List.takeWhile (fun c => c != ':') (pyStripL l)))
          CATEGORIES = false := h
      rw [List.elem_iff.2 hmem] at h'
      cases h'
    · simp [h2]

theorem decodeStep_noop (c : Str) (st : Store) (l : Str)
    (hw : lineWrite l = none) (hs : isCatSwitch l = false) :
    decodeStep (c, st) l = (c, st) := by
  rw [decodeStep_eq, hw, catStep_of_not_switch c l hs]

/-- Skip lines leave both components of the state unchanged. -/
theorem decodeStep_skip (c : Str) (st : Store) (l : Str)
    (h : (pyStripL l).isEmpty = true ∨ hasSub sepTok (pyStripL l) = true) :
    decodeStep (c, st) l = (c, st) := by
  unfold decodeStep
  rcases h with h | h <;> simp [h]

theorem decodeLines_append (ls1 ls2 : List Str) (acc : Str × Store) :
    decodeLines (ls1 ++ ls2) acc = decodeLines ls2 (decodeLines ls1 acc) :=
  List.foldl_append _ _ _ _

theorem decodeLines_fst (ls : List Str) (c : Str) (st : Store) :
    (decodeLines ls (c, st)).1 = catFold ls c := by
  induction ls generalizing c st with
  | nil => rfl
  | cons l ls ih =>
    show (decodeLines ls (decodeStep (c, st) l)).1 = catFold (l :: ls) c
    rw [decodeStep_eq]
    rw [ih]
    rfl

/-- Lines that write nothing and switch nothing are no-ops for the fold. -/
theorem decodeLines_noop (ls : List Str) (acc : Str × Store)
    (h : ∀ l ∈ ls, lineWrite l = none ∧ isCatSwitch l = false) :
    decodeLines ls acc = acc := by
  induction ls with
  | nil => rfl
  | cons l ls ih =>
    obtain ⟨hw, hs⟩ := h l (List.mem_cons_self _ _)
    show decodeLines ls (decodeStep acc l) = acc
    rw [show decodeStep acc l = (acc.1, acc.2) from decodeStep_noop acc.1 acc.2 l hw hs]
    exact ih (fun x hx => h x (List.mem_cons_of_mem _ hx))

/-- A name that no line writes keeps its binding through the fold. -/
theorem lookupS_decodeLines_no_write (ls : List Str) (c : Str) (st : Store) (n : Str)
    (h : ∀ l ∈ ls, ∀ v, lineWrite l ≠ some (n, v)) :
    lookupS (decodeLines ls (c, st)).2 n = lookupS st n := by
  induction ls generalizing c st with
  | nil => rfl
  | cons l ls ih =>
    show lookupS (decodeLines ls (decodeStep (c, st) l)).2 n = lookupS st n
    rw [decodeStep_eq]
    cases hw : lineWrite l with
    | none =>
      simpa using ih (catStep c l) st (fun x hx => h x (List.mem_cons_of_mem _ hx))
    | some g =>
      obtain ⟨gn, gv⟩ := g
      have hne : gn ≠ n := by
        intro hgn
        exact h l (List.mem_cons_self _ _) gv (by rw [hw, hgn])
      rw [ih (catStep c l) _ (fun x hx => h x (List.mem_cons_of_mem _ hx))]
      exact lookupS_dictInsert_ne st gn n _ (fun hnn => hne hnn.symm)


/-! ### Emitted series lines through the decoder -/

theorem hasSub_false_of_no_dash (s : Str) (h : ∀ c ∈ s, c ≠ '-') :
    hasSub sepTok s = false := by
  induction s with
  | nil => rfl
  | cons c rest ih =>
    have hc : c ≠ '-' := h c (List.mem_cons_self _ _)
    have hpre : isPre sepTok (c :: rest) = false := by
      show (('-' == c) && isPre "----".toList rest) = false
      have : ('-' == c) = false := by
        simp only [beq_eq_false_iff_ne, ne_eq]
        exact fun hcc => hc hcc.symm
      rw [this, Bool.false_and]
    show (isPre sepTok (c :: rest) || hasSub sepTok rest) = false
    rw [hpre, ih (fun y hy => h y (List.mem_cons_of_mem _ hy)), Bool.or_self]

theorem isPre_dash_ext (pat : Str) (hp : ∀ c ∈ pat, c = '-') :
    ∀ (w s : Str), (∀ c ∈ s, c ≠ '-') →
    isPre pat (w ++ '-' :: s) = isPre pat (w ++ ['-']) := by
  induction pat with
  | nil => intro w s _; rfl
  | cons p pat ih =>
    intro w s hs
    have hpd : p = '-' := hp p (List.mem_cons_self _ _)
    have hp' : ∀ c ∈ pat, c = '-' := fun c hc => hp c (List.mem_cons_of_mem _ hc)
    cases w with
    | nil =>
      show ((p == '-') && isPre pat s) = ((p == '-') && isPre pat [])
      cases pat with
      | nil => rfl
      | cons q pat' =>
        have hq : q = '-' := hp' q (List.mem_cons_self _ _)
        cases s with
        | nil => rfl
        | cons c s' =>
          have hc : c ≠ '-' := hs c (List.mem_cons_self _ _)
          show ((p == '-') && ((q == c) && isPre pat' s')) =
            ((p == '-') && isPre (q :: pat') [])
          have hqc : (q == c) = false := by
            simp only [beq_eq_false_iff_ne, ne_eq, hq]
            exact fun hcc => hc hcc.symm
          rw [hqc, Bool.false_and]
          rfl
    | cons a w' =>
      show ((p == a) && isPre pat (w' ++ '-' :: s)) =
        ((p == a) && isPre pat (w' ++ ['-']))
      rw [ih hp' w' s hs]

theorem hasSub_dash_ext (n s : Str) (hs : ∀ c ∈ s, c ≠ '-') :
    hasSub sepTok (n ++ '-' :: s) = hasSub sepTok (n ++ ['-']) := by
  induction n with
  | nil =>
    show (isPre sepTok ('-' :: s) || hasSub sepTok s) =
      (isPre sepTok ['-'] || hasSub sepTok [])
    have h1 : isPre sepTok ('-' :: s) = isPre sepTok ['-'] := by
      have := isPre_dash_ext sepTok (by decide) [] s hs
      simpa using this
    rw [h1, hasSub_false_of_no_dash s hs]
    rfl
  | cons c n' ih =>
    show (isPre sepTok (c :: (n' ++ '-' :: s)) || hasSub sepTok (n' ++ '-' :: s)) =
      (isPre sepTok (c :: (n' ++ ['-'])) || hasSub sepTok (n' ++ ['-']))
    rw [ih]
    have := isPre_dash_ext sepTok (by decide) (c :: n') s hs
    rw [show ((c :: n') ++ '-' :: s) = c :: (n' ++ '-' :: s) from rfl] at this
    rw [show ((c :: n') ++ ['-']) = c :: (n' ++ ['-']) from rfl] at this
    rw [this]

theorem seriesLine_finite (n : Str) (q : ℚ) :
    seriesLine n (.finite q) = n ++ '-' :: (" ep: ".toList ++ pyReprQ q) := by
  show n ++ "- ep: ".toList ++ pyReprQ q = n ++ '-' :: (" ep: ".toList ++ pyReprQ q)
  rw [List.append_assoc]
  rfl

theorem seriesLine_no_sepTok (n : Str) (q : ℚ) (h0 : 0 ≤ q)
    (hn : hasSub sepTok (n ++ ['-']) = false) :
    hasSub sepTok (seriesLine n (.finite q)) = false := by
  rw [seriesLine_finite]
  rw [hasSub_dash_ext n _ ?hs]
  · exact hn
  case hs =>
    intro c hc
    rcases List.mem_append.1 hc with hc | hc
    · exact (show ∀ x ∈ (" ep: ".toList : Str), x ≠ '-' from by decide) c hc
    · exact dotDigits_ne_dash c (pyReprQ_mem q h0 c hc)

theorem seriesLine_strip (n : Str) (q : ℚ) (h0 : 0 ≤ q) (hne : n ≠ [])
    (hstrip : pyStripL n = n) :
    pyStripL (seriesLine n (.finite q)) = seriesLine n (.finite q) := by
  obtain ⟨hh, hl⟩ := ends_not_ws_of_pyStripL_self n hne hstrip
  apply pyStripL_eq_self_of_ends
  · intro c hc
    rw [show seriesLine n (.finite q) = n ++ ("- ep: ".toList ++ pyReprQ q)
      from by rw [seriesLine_finite]; rfl] at hc
    rw [List.head?_append] at hc
    cases n with
    | nil => exact absurd rfl hne
    | cons a t =>
      simp only [List.head?_cons, Option.or] at hc
      injection hc with hc
      subst hc
      simpa using hh
  · intro c hc
    rw [show seriesLine n (.finite q) = n ++ ("- ep: ".toList ++ pyReprQ q)
      from by rw [seriesLine_finite]; rfl] at hc
    rw [List.getLast?_append, List.getLast?_append] at hc
    obtain ⟨cd, hcd, hcdd⟩ := pyReprQ_getLast_digit q h0
    rw [hcd] at hc
    simp only [Option.or] at hc
    injection hc with hc
    rw [← hc]
    exact digitDot_not_ws cd (digits10_digitDot cd hcdd)

theorem seriesLine_getLast_ne_colon (n : Str) (q : ℚ) (h0 : 0 ≤ q) :
    (seriesLine n (.finite q)).getLast? ≠ some ':' := by
  rw [show seriesLine n (.finite q) = n ++ ("- ep: ".toList ++ pyReprQ q)
    from by rw [seriesLine_finite]; rfl]
  rw [List.getLast?_append, List.getLast?_append]
  obtain ⟨cd, hcd, hcdd⟩ := pyReprQ_getLast_digit q h0
  rw [hcd]
  simp only [Option.or]
  intro hc
  injection hc with hc
  exact digits10_ne_colon cd hcdd hc

theorem seriesLine_ne_nil (n : Str) (q : ℚ) (hne : n ≠ []) :
    (seriesLine n (.finite q)).isEmpty = false := by
  cases n with
  | nil => exact absurd rfl hne
  | cons a t => rfl

/-- The decoder writes exactly (name, chapter) from an emitted series line. -/
theorem lineWrite_seriesLine (n : Str) (q : ℚ) (hn : cleanName n)
    (h0 : 0 ≤ q) (hd : (q * 10 ^ q.den).den = 1) :
    lineWrite (seriesLine n (.finite q)) = some (n, .finite q) := by
  obtain ⟨hne, hstrip, hnl, hdash⟩ := hn
  have hs := seriesLine_strip n q h0 hne hstrip
  have hlast : ∀ x, n.getLast? = some x → pyWs x = false := by
    intro x hx
    obtain ⟨_, hl⟩ := ends_not_ws_of_pyStripL_self n hne hstrip
    rw [List.getLast?_eq_getLast n hne] at hx
    injection hx with hx
    subst hx
    exact hl
  obtain ⟨rc, rt, hrc, hrcd⟩ := pyReprQ_head_digit q h0
  have hralldd : (pyReprQ q).all digitDot = true :=
    List.all_eq_true.2 (fun c hc => dotDigits_digitDot c (pyReprQ_mem q h0 c hc))
  have hsplit : seriesSplit [] (seriesLine n (.finite q)) = some (n, pyReprQ q) := by
    have := seriesSplit_app n [] (pyReprQ q) hne hlast (by rw [hrc]; simp) hralldd
    simpa [seriesLine] using this
  simp only [lineWrite]
  rw [hs, seriesLine_ne_nil n q hne,
    seriesLine_no_sepTok n q h0 hdash]
  simp only [Bool.or_self, Bool.false_eq_true, if_false]
  rw [if_neg (seriesLine_getLast_ne_colon n q h0)]
  rw [hsplit]
  have hreprstrip : pyStripL (pyReprQ q) = pyReprQ q :=
    pyStripL_all_not_ws _ (fun c hc => dotDigits_not_ws c (pyReprQ_mem q h0 c hc))
  simp only [hreprstrip, pyFloat_pyReprQ q h0 hd, hstrip]

/-- An emitted series line is not a category switch. -/
theorem isCatSwitch_seriesLine (n : Str) (q : ℚ) (hn : cleanName n) (h0 : 0 ≤ q) :
    isCatSwitch (seriesLine n (.finite q)) = false := by
  obtain ⟨hne, hstrip, _, _⟩ := hn
  simp only [isCatSwitch]
  rw [seriesLine_strip n q h0 hne hstrip]
  have : ((seriesLine n (.finite q)).getLast? == some ':') = false := by
    simp only [beq_eq_false_iff_ne, ne_eq]
    exact seriesLine_getLast_ne_colon n q h0
  rw [this]
  simp

/-- One decoder iteration on an emitted series line inserts the record with
the active category. -/
theorem decodeStep_seriesLine (c : Str) (st : Store) (n : Str) (q : ℚ)
    (hn : cleanName n) (h0 : 0 ≤ q) (hd : (q * 10 ^ q.den).den = 1) :
    decodeStep (c, st) (seriesLine n (.finite q)) =
      (c, dictInsert st n ⟨.finite q, c⟩) := by
  rw [decodeStep_eq, lineWrite_seriesLine n q hn h0 hd,
    catStep_of_not_switch c _ (isCatSwitch_seriesLine n q hn h0)]

/-- One decoder iteration on an emitted category header switches to it. -/
theorem decodeStep_header (c cat : Str) (st : Store) (hcat : cat ∈ CATEGORIES) :
    decodeStep (c, st) (cat ++ " :".toList) = (cat, st) := by
  simp only [CATEGORIES, List.mem_cons, List.not_mem_nil, or_false] at hcat
  rcases hcat with rfl | rfl | rfl | rfl <;> rfl


/-! ### The stable sort of the exporter -/

theorem lexLt_asymm : ∀ (a b : Str), lexLt a b = true → lexLt b a = false := by
  intro a
  induction a with
  | nil =>
    intro b h
    cases b with
    | nil => simp [lexLt] at h
    | cons y bs => rfl
  | cons x as ih =>
    intro b h
    cases b with
    | nil => simp [lexLt] at h
    | cons y bs =>
      unfold lexLt at h ⊢
      by_cases h1 : x.toNat < y.toNat
      · rw [if_neg (by omega), if_pos h1]
      · rw [if_neg h1] at h
        by_cases h2 : y.toNat < x.toNat
        · rw [if_pos h2] at h
          cases h
        · rw [if_neg h2] at h
          rw [if_neg h2, if_neg h1]
          exact ih bs h

theorem lexLt_negtrans : ∀ (a b c : Str),
    lexLt a b = false → lexLt b c = false → lexLt a c = false := by
  intro a
  induction a with
  | nil =>
    intro b c h1 h2
    cases c with
    | nil => rfl
    | cons z cs =>
      cases b with
      | nil => exact absurd h2 (by simp [lexLt])
      | cons y bs => exact absurd h1 (by simp [lexLt])
  | cons x as ih =>
    intro b c h1 h2
    cases c with
    | nil => cases b <;> rfl
    | cons z cs =>
      cases b with
      | nil => exact absurd h2 (by simp [lexLt])
      | cons y bs =>
        unfold lexLt at h1 h2 ⊢
        by_cases hxy : x.toNat < y.toNat
        · rw [if_pos hxy] at h1
          cases h1
        · rw [if_neg hxy] at h1
          by_cases hyz : y.toNat < z.toNat
          · rw [if_pos hyz] at h2
            cases h2
          · rw [if_neg hyz] at h2
            by_cases hxz : x.toNat < z.toNat
            · omega
            · rw [if_neg hxz]
              by_cases hzx : z.toNat < x.toNat
              · rw [if_pos hzx]
              · rw [if_neg hzx]
                have hyx : ¬y.toNat < x.toNat := by omega
                have hzy : ¬z.toNat < y.toNat := by omega
                rw [if_neg hyx] at h1
                rw [if_neg hzy] at h2
                exact ih bs cs h1 h2

theorem mem_insSorted (x y : Str × SeriesInfo) (l : Store) :
    y ∈ insSorted x l ↔ y = x ∨ y ∈ l := by
  induction l with
  | nil => simp [insSorted]
  | cons z zs ih =>
    unfold insSorted
    by_cases h : lexLt (lowerKey z.1) (lowerKey x.1) = true
    · rw [if_pos h]
      simp only [List.mem_cons, ih]
      tauto
    · rw [if_neg h]
      simp [List.mem_cons]

theorem insSorted_perm (x : Str × SeriesInfo) (l : Store) :
    (insSorted x l).Perm (x :: l) := by
  induction l with
  | nil => exact List.Perm.refl _
  | cons z zs ih =>
    unfold insSorted
    by_cases h : lexLt (lowerKey z.1) (lowerKey x.1) = true
    · rw [if_pos h]
      exact (ih.cons z).trans (List.Perm.swap x z zs)
    · rw [if_neg h]

theorem sortByName_perm (l : Store) : (sortByName l).Perm l := by
  induction l with
  | nil => exact List.Perm.refl _
  | cons x xs ih =>
    exact (insSorted_perm x (sortByName xs)).trans (ih.cons x)

/-- Sortedness of the stable sort: no later record is strictly below an
earlier one under the lowercased-name order. -/
theorem sortByName_sorted (l : Store) :
    (sortByName l).Pairwise
      (fun a b => lexLt (lowerKey b.1) (lowerKey a.1) = false) := by
  induction l with
  | nil => exact List.Pairwise.nil
  | cons x xs ih =>
    show (insSorted x (sortByName xs)).Pairwise _
    have hstep : ∀ (m : Store), m.Pairwise
        (fun a b => lexLt (lowerKey b.1) (lowerKey a.1) = false) →
        (insSorted x m).Pairwise
          (fun a b => lexLt (lowerKey b.1) (lowerKey a.1) = false) := by
      intro m
      induction m with
      | nil => intro _; exact List.pairwise_singleton _ _
      | cons z zs ihm =>
        intro hp
        rcases List.pairwise_cons.1 hp with ⟨hz, hzs⟩
        unfold insSorted
        by_cases h : lexLt (lowerKey z.1) (lowerKey x.1) = true
        · rw [if_pos h]
          refine List.pairwise_cons.2 ⟨?_, ihm hzs⟩
          intro b hb
          rcases (mem_insSorted x b zs).1 hb with rfl | hb
          · exact lexLt_asymm _ _ h
          · exact hz b hb
        · rw [if_neg h]
          refine List.pairwise_cons.2 ⟨?_, hp⟩
          intro b hb
          rcases List.mem_cons.1 hb with rfl | hb
          · simpa using h
          · have hzb := hz b hb
            exact lexLt_negtrans _ _ _ hzb (by simpa using h)
    exact hstep (sortByName xs) ih

/-! ### Grouping equals filtering on a duplicate-free store -/

theorem dictInsert_append (st : Store) (n : Str) (v : SeriesInfo)
    (h : n ∉ st.map Prod.fst) : dictInsert st n v = st ++ [(n, v)] := by
  induction st with
  | nil => rfl
  | cons p st ih =>
    simp only [List.map_cons, List.mem_cons] at h
    push_neg at h
    unfold dictInsert
    rw [if_neg (fun hp => h.1 hp.symm)]
    rw [ih h.2]
    rfl

theorem groupOf_foldl (cat : Str) : ∀ (data acc : Store),
    (∀ p ∈ data, p.1 ∉ acc.map Prod.fst) → (data.map Prod.fst).Nodup →
    data.foldl (fun acc p => if effCat p.2 = cat then dictInsert acc p.1 p.2 else acc) acc
      = acc ++ data.filter (fun p => effCat p.2 = cat) := by
  intro data
  induction data with
  | nil => intro acc _ _; simp
  | cons p data ih =>
    intro acc hfresh hnd
    simp only [List.map_cons, List.nodup_cons] at hnd
    simp only [List.foldl_cons, List.filter_cons]
    by_cases hcat : effCat p.2 = cat
    · rw [if_pos hcat, if_pos (by simpa using hcat)]
      rw [dictInsert_append acc p.1 p.2 (hfresh p (List.mem_cons_self _ _))]
      have hfresh' : ∀ x ∈ data, x.1 ∉ (acc ++ [(p.1, p.2)]).map Prod.fst := by
        intro x hx
        simp only [List.map_append, List.mem_append, List.map_cons, List.map_nil,
          List.mem_singleton, List.mem_cons]
        push_neg
        refine ⟨fun hmem => hfresh x (List.mem_cons_of_mem _ hx) hmem, ?_⟩
        constructor
        · intro hxp
          exact hnd.1 (hxp ▸ List.mem_map.2 ⟨x, hx, rfl⟩)
        · simp
      rw [ih (acc ++ [(p.1, p.2)]) hfresh' hnd.2]
      simp
    · rw [if_neg hcat, if_neg (by simpa using hcat)]
      exact ih acc (fun x hx => hfresh x (List.mem_cons_of_mem _ hx)) hnd.2

theorem groupOf_eq_filter (data : Store) (cat : Str)
    (hnd : (data.map Prod.fst).Nodup) :
    groupOf data cat = data.filter (fun p => effCat p.2 = cat) := by
  unfold groupOf
  rw [groupOf_foldl cat data [] (by simp) hnd]
  rfl

/-! ### Folding appends equals flatMap -/

theorem foldl_append_flatMap {β : Type} (g : β → List Str) :
    ∀ (l : List β) (acc : List Str),
    l.foldl (fun a p => a ++ g p) acc = acc ++ l.flatMap g := by
  intro l
  induction l with
  | nil => intro acc; simp
  | cons x xs ih =>
    intro acc
    simp only [List.foldl_cons, List.flatMap_cons]
    rw [ih]
    simp


/-! ### Decoding an emitted category block -/

theorem plainChapter_elim : ∀ (ch : PyFloat), plainChapter ch = true →
    ∃ q, ch = .finite q ∧ 0 ≤ q ∧ (q * 10 ^ q.den).den = 1 := by
  intro ch h
  cases ch with
  | finite q =>
    simp only [plainChapter, Bool.and_eq_true, decide_eq_true_eq] at h
    exact ⟨q, rfl, h.1.1, h.1.2⟩
  | pinf => simp [plainChapter] at h
  | ninf => simp [plainChapter] at h
  | nan => simp [plainChapter] at h

theorem lookupS_insertAllCat_not_mem (cat : Str) (n : Str) :
    ∀ (recs : Store) (st : Store), n ∉ recs.map Prod.fst →
    lookupS (insertAllCat recs cat st) n = lookupS st n := by
  intro recs
  induction recs with
  | nil => intro st _; rfl
  | cons p recs ih =>
    intro st h
    simp only [List.map_cons, List.mem_cons] at h
    push_neg at h
    show lookupS (insertAllCat recs cat (dictInsert st p.1 ⟨p.2.chapter, cat⟩)) n =
      lookupS st n
    rw [ih _ h.2]
    exact lookupS_dictInsert_ne st p.1 n _ (fun hp => h.1 hp)

theorem lookupS_insertAllCat_mem (cat : Str) (n : Str) (i : SeriesInfo) :
    ∀ (recs : Store) (st : Store), (recs.map Prod.fst).Nodup → (n, i) ∈ recs →
    lookupS (insertAllCat recs cat st) n = some ⟨i.chapter, cat⟩ := by
  intro recs
  induction recs with
  | nil => intro st _ h; simp at h
  | cons p recs ih =>
    intro st hnd h
    simp only [List.map_cons, List.nodup_cons] at hnd
    show lookupS (insertAllCat recs cat (dictInsert st p.1 ⟨p.2.chapter, cat⟩)) n =
      some ⟨i.chapter, cat⟩
    rcases List.mem_cons.1 h with h | h
    · have hn : n ∉ recs.map Prod.fst := by
        rw [show n = p.1 from by rw [← h]]
        exact hnd.1
      rw [lookupS_insertAllCat_not_mem cat n recs _ hn]
      rw [show p.1 = n from by rw [← h], show p.2 = i from by rw [← h]]
      exact lookupS_dictInsert_self st n ⟨i.chapter, cat⟩
    · exact ih _ hnd.2 h

/-- The record lines of a block insert every record with the block's
category, leaving the category state unchanged. -/
theorem decodeLines_recLines (cat : Str) :
    ∀ (recs : Store) (st : Store),
    (∀ p ∈ recs, cleanName p.1 ∧ plainChapter p.2.chapter = true) →
    decodeLines (recs.flatMap (fun p => [seriesLine p.1 p.2.chapter, [], [], []]))
        (cat, st) = (cat, insertAllCat recs cat st) := by
  intro recs
  induction recs with
  | nil => intro st _; rfl
  | cons p recs ih =>
    intro st hcl
    obtain ⟨hclean, hplain⟩ := hcl p (List.mem_cons_self _ _)
    obtain ⟨q, hq, h0, hden⟩ := plainChapter_elim p.2.chapter hplain
    have hstep : decodeStep (cat, st) (seriesLine p.1 p.2.chapter) =
        (cat, dictInsert st p.1 ⟨p.2.chapter, cat⟩) := by
      rw [hq]
      exact decodeStep_seriesLine cat st p.1 q hclean h0 hden
    show decodeLines ([] :: [] :: [] ::
        recs.flatMap (fun p => [seriesLine p.1 p.2.chapter, [], [], []]))
        (decodeStep (cat, st) (seriesLine p.1 p.2.chapter)) =
      (cat, insertAllCat (p :: recs) cat st)
    rw [hstep]
    show decodeLines (recs.flatMap (fun p => [seriesLine p.1 p.2.chapter, [], [], []]))
        (cat, dictInsert st p.1 ⟨p.2.chapter, cat⟩) =
      (cat, insertAllCat (p :: recs) cat st)
    rw [ih _ (fun x hx => hcl x (List.mem_cons_of_mem _ hx))]
    rfl

/-- Decoding one emitted category block: the store gains all records of the
block with the block's category; the final category is the block's when the
block is nonempty. -/
theorem decodeLines_specBlock (S : Store) (cat : Str) (c : Str) (st : Store)
    (hcat : cat ∈ CATEGORIES)
    (hcl : ∀ p ∈ S, cleanName p.1 ∧ plainChapter p.2.chapter = true) :
    (decodeLines (specBlock S cat) (c, st)).2 =
      insertAllCat (sortByName (S.filter (fun p => effCat p.2 = cat))) cat st := by
  unfold specBlock
  by_cases hemp : (sortByName (S.filter (fun p => effCat p.2 = cat))).isEmpty = true
  · rw [if_pos hemp]
    have : sortByName (S.filter (fun p => effCat p.2 = cat)) = [] := by
      simpa [List.isEmpty_iff] using hemp
    rw [this]
    rfl
  · rw [if_neg hemp]
    set recs := sortByName (S.filter (fun p => effCat p.2 = cat)) with hrecs
    have hclr : ∀ p ∈ recs, cleanName p.1 ∧ plainChapter p.2.chapter = true := by
      intro p hp
      have : p ∈ S.filter (fun p => effCat p.2 = cat) :=
        (sortByName_perm _).mem_iff.1 hp
      exact hcl p (List.mem_filter.1 this).1
    show (decodeLines ([] :: [] :: [] ::
      (recs.flatMap (fun p => [seriesLine p.1 p.2.chapter, [], [], []]) ++
        [SEPLINE, [], [], []]))
      (decodeStep (c, st) (cat ++ " :".toList))).2 = insertAllCat recs cat st
    rw [decodeStep_header c cat st hcat]
    show (decodeLines
      (recs.flatMap (fun p => [seriesLine p.1 p.2.chapter, [], [], []]) ++
        [SEPLINE, [], [], []]) (cat, st)).2 = insertAllCat recs cat st
    rw [decodeLines_append, decodeLines_recLines cat recs st hclr]
    rfl


/-! ### The exporter port equals its spec-shaped form -/

theorem sortByName_isEmpty (l : Store) : (sortByName l).isEmpty = l.isEmpty := by
  have hlen := (sortByName_perm l).length_eq
  cases h : sortByName l with
  | nil =>
    rw [h] at hlen
    cases l with
    | nil => rfl
    | cons x xs => simp at hlen
  | cons y ys =>
    rw [h] at hlen
    cases l with
    | nil => simp at hlen
    | cons x xs => rfl

theorem catBlockLines_eq_specBlock (S : Store) (cat : Str)
    (hnd : (S.map Prod.fst).Nodup) :
    catBlockLines S cat = specBlock S cat := by
  unfold catBlockLines specBlock
  rw [groupOf_eq_filter S cat hnd]
  by_cases hf : (S.filter (fun p => effCat p.2 = cat)).isEmpty = true
  · rw [if_pos hf, if_pos (by rw [sortByName_isEmpty]; exact hf)]
  · rw [if_neg hf, if_neg (by rw [sortByName_isEmpty]; exact hf)]
    rw [foldl_append_flatMap]
    rfl

/-- The exporter port produces exactly the spec-shaped line list. -/
theorem format_eq_specText (S : Store) (hnd : (S.map Prod.fst).Nodup) :
    format_data_to_text S = encodeSpecText S := by
  simp only [format_data_to_text, encodeSpecText, specLines]
  by_cases hS : S.isEmpty = true
  · rw [if_pos hS, if_pos hS]
  · rw [if_neg hS, if_neg hS]
    have hfun : catBlockLines S = specBlock S :=
      funext (fun cat => catBlockLines_eq_specBlock S cat hnd)
    rw [foldl_append_flatMap (catBlockLines S) CATEGORIES, hfun]

/-! ### Strip, join and split around the emitted document -/

theorem joinNlL_cons_ne_nil (m : Str) (X : List Str) (h : X ≠ []) :
    joinNlL (m :: X) = m ++ '\n' :: joinNlL X := by
  cases X with
  | nil => exact absurd rfl h
  | cons x xs => rfl

theorem joinNlL_replicate_blank (j : ℕ) :
    joinNlL (List.replicate (j + 1) []) = List.replicate j '\n' := by
  induction j with
  | zero => rfl
  | succ j ih =>
    rw [show List.replicate (j + 1 + 1) ([] : Str) =
      [] :: List.replicate (j + 1) [] from rfl]
    rw [joinNlL_cons_ne_nil [] _ (by simp)]
    rw [ih]
    rfl

theorem joinNlL_append_blanks : ∀ (M : List Str) (j : ℕ), M ≠ [] →
    joinNlL (M ++ List.replicate j []) = joinNlL M ++ List.replicate j '\n' := by
  intro M
  induction M with
  | nil => intro j h; exact absurd rfl h
  | cons m M' ih =>
    intro j _
    cases M' with
    | nil =>
      cases j with
      | zero => simp
      | succ j =>
        rw [show (([m] : List Str) ++ List.replicate (j + 1) ([] : Str)) =
          m :: List.replicate (j + 1) [] from rfl]
        rw [joinNlL_cons_ne_nil m _ (by simp)]
        rw [joinNlL_replicate_blank j]
        rw [show joinNlL [m] = m from rfl]
        rw [show ('\n' :: List.replicate j '\n') = List.replicate (j + 1) '\n' from rfl]
    | cons x xs =>
      rw [show ((m :: x :: xs : List Str) ++ List.replicate j ([] : Str)) =
        m :: ((x :: xs) ++ List.replicate j []) from rfl]
      rw [joinNlL_cons_ne_nil m _ (by simp)]
      rw [ih j (by simp)]
      rw [joinNlL_cons_ne_nil m (x :: xs) (by simp)]
      simp

theorem pyStripL_clean_append_nl (X : Str) (j : ℕ)
    (h1 : ∀ c, X.head? = some c → pyWs c = false)
    (h2 : ∀ c, X.getLast? = some c → pyWs c = false) (hne : X ≠ []) :
    pyStripL (X ++ List.replicate j '\n') = X := by
  unfold pyStripL
  cases hX : X with
  | nil => exact absurd hX hne
  | cons a t =>
    have ha : pyWs a = false := by
      apply h1
      rw [hX]
      rfl
    have hd1 : ((a :: t) ++ List.replicate j '\n').dropWhile pyWs =
        (a :: t) ++ List.replicate j '\n' := by
      rw [show ((a :: t) ++ List.replicate j '\n') =
        a :: (t ++ List.replicate j '\n') from rfl]
      exact dropWhile_head_false _ _ _ ha
    rw [hd1]
    have hrev : ((a :: t) ++ List.replicate j '\n').reverse =
        List.replicate j '\n' ++ (a :: t).reverse := by
      rw [List.reverse_append, List.reverse_replicate]
    rw [hrev]
    cases hXr : (a :: t).reverse with
    | nil => simp at hXr
    | cons b u =>
      have hb : pyWs b = false := by
        apply h2
        rw [hX, ← List.head?_reverse, hXr]
        rfl
      rw [dropWhile_all_append pyWs _ b u
        (fun x hx => by rw [List.eq_of_mem_replicate hx]; rfl) hb]
      rw [← hXr, List.reverse_reverse]

theorem splitNlL_single (m : Str) (h : '\n' ∉ m) : splitNlL m = [m] := by
  induction m with
  | nil => rfl
  | cons c t ih =>
    have hc : c ≠ '\n' := fun hcc => h (hcc ▸ List.mem_cons_self _ _)
    have ht : '\n' ∉ t := fun htt => h (List.mem_cons_of_mem _ htt)
    simp only [splitNlL]
    rw [if_neg hc, ih ht]

theorem splitNlL_cons_line (m : Str) (X : Str) (h : '\n' ∉ m) :
    splitNlL (m ++ '\n' :: X) = m :: splitNlL X := by
  induction m with
  | nil =>
    show splitNlL ('\n' :: X) = [] :: splitNlL X
    simp only [splitNlL, if_pos]
  | cons c t ih =>
    have hc : c ≠ '\n' := fun hcc => h (hcc ▸ List.mem_cons_self _ _)
    have ht : '\n' ∉ t := fun htt => h (List.mem_cons_of_mem _ htt)
    show splitNlL (c :: (t ++ '\n' :: X)) = (c :: t) :: splitNlL X
    simp only [splitNlL]
    rw [if_neg hc, ih ht]

theorem splitNlL_joinNlL : ∀ (M : List Str), M ≠ [] → (∀ l ∈ M, '\n' ∉ l) →
    splitNlL (joinNlL M) = M := by
  intro M
  induction M with
  | nil => intro h; exact absurd rfl h
  | cons m M' ih =>
    intro _ hnl
    cases M' with
    | nil =>
      rw [show joinNlL [m] = m from rfl]
      exact splitNlL_single m (hnl m (List.mem_cons_self _ _))
    | cons x xs =>
      rw [joinNlL_cons_ne_nil m (x :: xs) (by simp)]
      rw [splitNlL_cons_line m _ (hnl m (List.mem_cons_self _ _))]
      rw [ih (by simp) (fun l hl => hnl l (List.mem_cons_of_mem _ hl))]

/-! ### The trailing trim -/

theorem head_dropWhile_false (p : Char → Bool) :
    ∀ (l : Str) (x : Char), (l.dropWhile p).head? = some x → p x = false := by
  intro l
  induction l with
  | nil => intro x h; simp at h
  | cons c t ih =>
    intro x h
    by_cases hc : p c = true
    · rw [List.dropWhile_cons, if_pos hc] at h
      exact ih x h
    · rw [List.dropWhile_cons, if_neg hc] at h
      injection h with h
      rw [← h]
      simpa using hc

theorem headStr_dropWhile_false (p : Str → Bool) :
    ∀ (l : List Str) (x : Str), (l.dropWhile p).head? = some x → p x = false := by
  intro l
  induction l with
  | nil => intro x h; simp at h
  | cons c t ih =>
    intro x h
    by_cases hc : p c = true
    · rw [List.dropWhile_cons, if_pos hc] at h
      exact ih x h
    · rw [List.dropWhile_cons, if_neg hc] at h
      injection h with h
      rw [← h]
      simpa using hc

theorem trimTrailBlank_decomp (ls : List Str) :
    ls = trimTrailBlank ls ++
      List.replicate (ls.reverse.takeWhile List.isEmpty).length [] := by
  unfold trimTrailBlank
  have h2 : ls.reverse.takeWhile List.isEmpty =
      List.replicate (ls.reverse.takeWhile List.isEmpty).length [] := by
    apply List.eq_replicate_of_mem
    intro b hb
    have := List.mem_takeWhile_imp hb
    simpa [List.isEmpty_iff] using this
  have h3 : (ls.reverse.takeWhile List.isEmpty).reverse =
      List.replicate (ls.reverse.takeWhile List.isEmpty).length [] := by
    conv_lhs => rw [h2]
    rw [List.reverse_replicate]
  calc ls = ls.reverse.reverse := by rw [List.reverse_reverse]
    _ = (ls.reverse.takeWhile List.isEmpty ++ ls.reverse.dropWhile List.isEmpty).reverse := by
        rw [List.takeWhile_append_dropWhile]
    _ = (ls.reverse.dropWhile List.isEmpty).reverse ++
        (ls.reverse.takeWhile List.isEmpty).reverse := by rw [List.reverse_append]
    _ = (ls.reverse.dropWhile List.isEmpty).reverse ++
        List.replicate (ls.reverse.takeWhile List.isEmpty).length [] := by rw [h3]

theorem trimTrailBlank_getLast_ne_blank (ls : List Str) :
    ∀ x, (trimTrailBlank ls).getLast? = some x → x ≠ [] := by
  intro x hx
  unfold trimTrailBlank at hx
  rw [List.getLast?_reverse] at hx
  have := headStr_dropWhile_false List.isEmpty ls.reverse x hx
  simpa [List.isEmpty_iff] using this

theorem trimTrailBlank_ne_nil (ls : List Str) (l0 : Str) (hmem : l0 ∈ ls)
    (hne : l0 ≠ []) : trimTrailBlank ls ≠ [] := by
  intro h
  have hdec := trimTrailBlank_decomp ls
  rw [h, List.nil_append] at hdec
  rw [hdec] at hmem
  exact hne (List.eq_of_mem_replicate hmem)


/-! ### Towards the round trip: lookup and membership utilities -/

theorem lookupS_eq_some_mem : ∀ (st : Store) (n : Str) (i : SeriesInfo),
    lookupS st n = some i → (n, i) ∈ st := by
  intro st
  induction st with
  | nil => intro n i h; simp [lookupS] at h
  | cons p st ih =>
    intro n i h
    unfold lookupS at h
    by_cases hp : p.1 = n
    · rw [if_pos hp] at h
      injection h with h
      exact List.mem_cons.2 (Or.inl (by rw [← hp, ← h]))
    · rw [if_neg hp] at h
      exact List.mem_cons_of_mem _ (ih n i h)

theorem mem_nodup_unique (S : Store) (n : Str) (a b : SeriesInfo)
    (hnd : (S.map Prod.fst).Nodup) (ha : (n, a) ∈ S) (hb : (n, b) ∈ S) : a = b := by
  have h1 := lookupS_eq_of_mem_nodup S n a hnd ha
  have h2 := lookupS_eq_of_mem_nodup S n b hnd hb
  rw [h1] at h2
  injection h2

theorem effCat_of_mem (i : SeriesInfo) (h : i.category ∈ CATEGORIES) :
    effCat i = i.category := by
  unfold effCat
  rw [if_pos (by simpa using List.elem_iff.2 h)]

theorem names_sortByName_perm (l : Store) :
    ((sortByName l).map Prod.fst).Perm (l.map Prod.fst) :=
  (sortByName_perm l).map Prod.fst

theorem names_sorted_filter_nodup (S : Store) (cat : Str)
    (hnd : (S.map Prod.fst).Nodup) :
    ((sortByName (S.filter (fun p => effCat p.2 = cat))).map Prod.fst).Nodup := by
  apply ((names_sortByName_perm _).nodup_iff).2
  exact List.Nodup.sublist (List.Sublist.map Prod.fst (List.filter_sublist S)) hnd

theorem mem_names_filter_imp (S : Store) (cat : Str) (n : Str) (i : SeriesInfo)
    (hnd : (S.map Prod.fst).Nodup) (hi : (n, i) ∈ S)
    (h : n ∈ ((S.filter (fun p => effCat p.2 = cat)).map Prod.fst)) :
    effCat i = cat := by
  obtain ⟨p, hp, hpn⟩ := List.mem_map.1 h
  obtain ⟨hpS, hpc⟩ := List.mem_filter.1 hp
  have hpi : p.2 = i := by
    apply mem_nodup_unique S n _ _ hnd _ hi
    rw [show (n, p.2) = p from by rw [← hpn]]
    exact hpS
  rw [← hpi]
  simpa using hpc

theorem mem_names_sorted_filter (S : Store) (cat : Str) (n : Str) (i : SeriesInfo)
    (hi : (n, i) ∈ S) (hcat : effCat i = cat) :
    (n, i) ∈ sortByName (S.filter (fun p => effCat p.2 = cat)) := by
  apply (sortByName_perm _).mem_iff.2
  exact List.mem_filter.2 ⟨hi, by simpa using hcat⟩

/-! ### Shapes of the emitted lines -/

theorem seriesLine_getLast_digit (n : Str) (q : ℚ) (h0 : 0 ≤ q) :
    ∀ x, (seriesLine n (.finite q)).getLast? = some x → x ∈ digits10 := by
  intro x hx
  rw [show seriesLine n (.finite q) = n ++ ("- ep: ".toList ++ pyReprQ q)
    from by rw [seriesLine_finite]; rfl] at hx
  rw [List.getLast?_append, List.getLast?_append] at hx
  obtain ⟨cd, hcd, hcdd⟩ := pyReprQ_getLast_digit q h0
  rw [hcd] at hx
  simp only [Option.or] at hx
  injection hx with hx
  rw [← hx]
  exact hcdd

theorem nl_not_mem_seriesLine (n : Str) (q : ℚ) (h0 : 0 ≤ q) (hnl : '\n' ∉ n) :
    '\n' ∉ seriesLine n (.finite q) := by
  intro h
  rw [show seriesLine n (.finite q) = n ++ ("- ep: ".toList ++ pyReprQ q)
    from by rw [seriesLine_finite]; rfl] at h
  rcases List.mem_append.1 h with h | h
  · exact hnl h
  · rcases List.mem_append.1 h with h | h
    · revert h
      decide
    · exact dotDigits_ne_nl '\n' (pyReprQ_mem q h0 '\n' h) rfl

theorem specBlock_mem_shapes (S : Store) (cat : Str) (l : Str)
    (h : l ∈ specBlock S cat) :
    l = cat ++ " :".toList ∨ l = [] ∨ l = SEPLINE ∨
      ∃ p, p ∈ S ∧ l = seriesLine p.1 p.2.chapter := by
  unfold specBlock at h
  by_cases hemp : (sortByName (S.filter (fun p => effCat p.2 = cat))).isEmpty = true
  · rw [if_pos hemp] at h
    simp at h
  · rw [if_neg hemp] at h
    rcases List.mem_cons.1 h with h | h
    · exact Or.inl h
    · rcases List.mem_cons.1 h with h | h
      · exact Or.inr (Or.inl h)
      · rcases List.mem_cons.1 h with h | h
        · exact Or.inr (Or.inl h)
        · rcases List.mem_cons.1 h with h | h
          · exact Or.inr (Or.inl h)
          · rcases List.mem_append.1 h with h | h
            · obtain ⟨p, hp, hl⟩ := List.mem_flatMap.1 h
              have hpS : p ∈ S :=
                (List.mem_filter.1 ((sortByName_perm _).mem_iff.1 hp)).1
              rcases List.mem_cons.1 hl with hl | hl
              · exact Or.inr (Or.inr (Or.inr ⟨p, hpS, hl⟩))
              · rcases List.mem_cons.1 hl with hl | hl
                · exact Or.inr (Or.inl hl)
                · rcases List.mem_cons.1 hl with hl | hl
                  · exact Or.inr (Or.inl hl)
                  · rcases List.mem_cons.1 hl with hl | hl
                    · exact Or.inr (Or.inl hl)
                    · simp at hl
            · rcases List.mem_cons.1 h with h | h
              · exact Or.inr (Or.inr (Or.inl h))
              · rcases List.mem_cons.1 h with h | h
                · exact Or.inr (Or.inl h)
                · rcases List.mem_cons.1 h with h | h
                  · exact Or.inr (Or.inl h)
                  · rcases List.mem_cons.1 h with h | h
                    · exact Or.inr (Or.inl h)
                    · simp at h

/-- Every line of the emitted document is newline-free and ends (when it
ends at all) in a non-whitespace character. -/
theorem emitted_line_facts (S : Store)
    (hcl : ∀ p ∈ S, cleanName p.1 ∧ plainChapter p.2.chapter = true) :
    ∀ l ∈ (["Lecture:".toList, [], [], [], SEPLINE, [], []] ++
      CATEGORIES.flatMap (specBlock S)),
      '\n' ∉ l ∧ (∀ c, l.getLast? = some c → pyWs c = false) := by
  intro l hl
  rcases List.mem_append.1 hl with hl | hl
  · have : l = "Lecture:".toList ∨ l = [] ∨ l = SEPLINE := by
      simp only [List.mem_cons, List.not_mem_nil, or_false] at hl
      tauto
    rcases this with rfl | rfl | rfl
    · exact ⟨by decide, by decide⟩
    · exact ⟨by decide, by decide⟩
    · exact ⟨by decide, by decide⟩
  · obtain ⟨cat, hcat, hlb⟩ := List.mem_flatMap.1 hl
    rcases specBlock_mem_shapes S cat l hlb with rfl | rfl | rfl | ⟨p, hpS, rfl⟩
    · simp only [CATEGORIES, List.mem_cons, List.not_mem_nil, or_false] at hcat
      rcases hcat with rfl | rfl | rfl | rfl <;> exact ⟨by decide, by decide⟩
    · exact ⟨by decide, by decide⟩
    · exact ⟨by decide, by decide⟩
    · obtain ⟨hclean, hplain⟩ := hcl p hpS
      obtain ⟨q, hq, h0, _⟩ := plainChapter_elim p.2.chapter hplain
      rw [hq]
      constructor
      · exact nl_not_mem_seriesLine p.1 q h0 hclean.2.2.1
      · intro c hc
        exact digitDot_not_ws c
          (digits10_digitDot c (seriesLine_getLast_digit p.1 q h0 c hc))


/-! ### Generic list facts used by the round trip -/

theorem mem_of_head?_eq {α : Type} (l : List α) (x : α) (h : l.head? = some x) :
    x ∈ l := by
  cases l with
  | nil => simp at h
  | cons a t =>
    rw [List.head?_cons] at h
    injection h with h
    rw [← h]
    exact List.mem_cons_self _ _

theorem getLast?_some_of_ne_nil {α : Type} :
    ∀ (l : List α), l ≠ [] → ∃ x, l.getLast? = some x := by
  intro l
  induction l with
  | nil => intro h; exact absurd rfl h
  | cons a t ih =>
    intro _
    cases t with
    | nil => exact ⟨a, by rw [List.getLast?_singleton]⟩
    | cons b r =>
      obtain ⟨x, hx⟩ := ih (by simp)
      exact ⟨x, by rw [List.getLast?_cons_cons]; exact hx⟩

theorem mem_of_getLast?_eq {α : Type} :
    ∀ (l : List α) (x : α), l.getLast? = some x → x ∈ l := by
  intro l
  induction l with
  | nil => intro x h; simp at h
  | cons a t ih =>
    intro x h
    cases t with
    | nil =>
      rw [List.getLast?_singleton] at h
      injection h with h
      rw [← h]
      exact List.mem_cons_self _ _
    | cons b r =>
      rw [List.getLast?_cons_cons] at h
      exact List.mem_cons_of_mem _ (ih x h)

theorem dropLast_append_getLast_eq {α : Type} :
    ∀ (l : List α) (x : α), l.getLast? = some x → l = l.dropLast ++ [x] := by
  intro l
  induction l with
  | nil => intro x h; simp at h
  | cons a t ih =>
    intro x h
    cases t with
    | nil =>
      rw [List.getLast?_singleton] at h
      injection h with h
      rw [h]
      rfl
    | cons b r =>
      rw [List.getLast?_cons_cons] at h
      calc a :: b :: r = a :: ((b :: r).dropLast ++ [x]) := by rw [← ih x h]
        _ = (a :: b :: r).dropLast ++ [x] := by rfl

/-! ### Head and last characters of a joined document -/

theorem joinNlL_head (m : Str) (M : List Str) (h : m ≠ []) :
    (joinNlL (m :: M)).head? = m.head? := by
  cases M with
  | nil => rfl
  | cons x xs =>
    rw [joinNlL_cons_ne_nil m (x :: xs) (by simp)]
    cases m with
    | nil => exact absurd rfl h
    | cons a t => rfl

theorem joinNlL_getLast : ∀ (M : List Str) (x : Str), M.getLast? = some x →
    x ≠ [] → (joinNlL M).getLast? = x.getLast? := by
  intro M
  induction M with
  | nil => intro x h _; simp at h
  | cons m M' ih =>
    intro x h hx
    cases M' with
    | nil =>
      rw [List.getLast?_singleton] at h
      injection h with h
      rw [show joinNlL [m] = m from rfl, h]
    | cons y ys =>
      rw [List.getLast?_cons_cons] at h
      have hih := ih x h hx
      obtain ⟨c, hc⟩ : ∃ c, x.getLast? = some c := by
        obtain ⟨c, hc⟩ := getLast?_some_of_ne_nil x hx
        exact ⟨c, hc⟩
      have hJ : joinNlL (y :: ys) ≠ [] := by
        intro hJ0
        rw [hJ0] at hih
        rw [hc] at hih
        simp at hih
      rw [joinNlL_cons_ne_nil m (y :: ys) (by simp)]
      rw [List.getLast?_append]
      cases hJe : joinNlL (y :: ys) with
      | nil => exact absurd hJe hJ
      | cons j js =>
        rw [List.getLast?_cons_cons, ← hJe, hih, hc]
        rfl

/-! ### Decoding the chained category blocks -/

theorem decodeLines_flatMap_blocks (S : Store)
    (hcl : ∀ p ∈ S, cleanName p.1 ∧ plainChapter p.2.chapter = true) :
    ∀ (cats : List Str), (∀ c ∈ cats, c ∈ CATEGORIES) → ∀ (c : Str) (st : Store),
    (decodeLines (cats.flatMap (specBlock S)) (c, st)).2 = specStoreFold S cats st := by
  intro cats
  induction cats with
  | nil => intro _ c st; rfl
  | cons cat cats ih =>
    intro hc c st
    rw [show (cat :: cats).flatMap (specBlock S) =
      specBlock S cat ++ cats.flatMap (specBlock S) from rfl]
    rw [decodeLines_append]
    cases hP : decodeLines (specBlock S cat) (c, st) with
    | mk c2 st2 =>
      rw [ih (fun x hx => hc x (List.mem_cons_of_mem _ hx)) c2 st2]
      have hst2 : st2 = insertAllCat
          (sortByName (S.filter (fun p => effCat p.2 = cat))) cat st := by
        rw [← decodeLines_specBlock S cat c st (hc cat (List.mem_cons_self _ _)) hcl, hP]
      rw [hst2]
      rfl

theorem lookupS_specStoreFold_not_mem (S : Store) (n : Str) :
    ∀ (cats : List Str) (st : Store),
    (∀ cat ∈ cats, n ∉ (S.filter (fun p => effCat p.2 = cat)).map Prod.fst) →
    lookupS (specStoreFold S cats st) n = lookupS st n := by
  intro cats
  induction cats with
  | nil => intro st _; rfl
  | cons cat cats ih =>
    intro st h
    show lookupS (specStoreFold S cats
      (insertAllCat (sortByName (S.filter (fun p => effCat p.2 = cat))) cat st)) n =
      lookupS st n
    rw [ih _ (fun x hx => h x (List.mem_cons_of_mem _ hx))]
    apply lookupS_insertAllCat_not_mem
    intro hmem
    exact h cat (List.mem_cons_self _ _) ((names_sortByName_perm _).mem_iff.1 hmem)

theorem lookupS_specStoreFold_mem (S : Store) (n : Str) (i : SeriesInfo)
    (hnd : (S.map Prod.fst).Nodup) (hi : (n, i) ∈ S) :
    ∀ (cats : List Str) (st : Store), cats.Nodup → effCat i ∈ cats →
    lookupS (specStoreFold S cats st) n = some ⟨i.chapter, effCat i⟩ := by
  intro cats
  induction cats with
  | nil => intro st _ h; simp at h
  | cons cat cats ih =>
    intro st hndc hmem
    simp only [List.nodup_cons] at hndc
    show lookupS (specStoreFold S cats
      (insertAllCat (sortByName (S.filter (fun p => effCat p.2 = cat))) cat st)) n =
      some ⟨i.chapter, effCat i⟩
    by_cases hc : effCat i = cat
    · have hnot : ∀ cat2 ∈ cats,
          n ∉ (S.filter (fun p => effCat p.2 = cat2)).map Prod.fst := by
        intro cat2 hcat2 hmem2
        have h2 := mem_names_filter_imp S cat2 n i hnd hi hmem2
        rw [hc] at h2
        exact hndc.1 (h2.symm ▸ hcat2)
      rw [lookupS_specStoreFold_not_mem S n cats _ hnot]
      rw [← hc]
      exact lookupS_insertAllCat_mem (effCat i) n i _ st
        (names_sorted_filter_nodup S (effCat i) hnd)
        (mem_names_sorted_filter S (effCat i) n i hi rfl)
    · have hmem2 : effCat i ∈ cats := by
        rcases List.mem_cons.1 hmem with h | h
        · exact absurd h hc
        · exact h
      exact ih _ hndc.2 hmem2

/-! ### The round trip on lookups -/

/-- Parsing the exported text restores every binding of a clean store:
same names, same chapters, same categories. -/
theorem parse_format_lookup (S : Store)
    (hnd : (S.map Prod.fst).Nodup)
    (hcl : ∀ p ∈ S, cleanName p.1 ∧ plainChapter p.2.chapter = true ∧
      p.2.category ∈ CATEGORIES) :
    ∀ n, lookupS (parse_series_data (format_data_to_text S)) n = lookupS S n := by
  intro n
  have hcl2 : ∀ p ∈ S, cleanName p.1 ∧ plainChapter p.2.chapter = true :=
    fun p hp => ⟨(hcl p hp).1, (hcl p hp).2.1⟩
  rw [format_eq_specText S hnd]
  by_cases hS : S.isEmpty = true
  · have hSnil : S = [] := by simpa [List.isEmpty_iff] using hS
    subst hSnil
    rw [show parse_series_data (encodeSpecText []) = [] from rfl]
  · rw [show encodeSpecText S = joinNlL (specLines S) from by
      unfold encodeSpecText
      rw [if_neg hS]]
    set L0 := (["Lecture:".toList, [], [], [], SEPLINE, [], []] ++
      CATEGORIES.flatMap (specBlock S)) with hL0
    set t1 := trimTrailBlank L0 with ht1
    set t2 := (if t1.getLast? = some SEPLINE then t1.dropLast else t1) with ht2
    set M := trimTrailBlank t2 with hM
    have hspec : specLines S = t2 := rfl
    rw [hspec]
    have hfacts : ∀ l ∈ L0, '\n' ∉ l ∧
        (∀ c, l.getLast? = some c → pyWs c = false) := by
      rw [hL0]
      exact emitted_line_facts S hcl2
    obtain ⟨j1, hdec1⟩ : ∃ j, L0 = t1 ++ List.replicate j [] :=
      ⟨_, trimTrailBlank_decomp L0⟩
    have hlecL0 : "Lecture:".toList ∈ L0 := by
      rw [hL0]
      exact List.mem_append_left _ (List.mem_cons_self _ _)
    have ht1ne : t1 ≠ [] :=
      trimTrailBlank_ne_nil L0 "Lecture:".toList hlecL0 (by decide)
    have ht1head : t1.head? = some "Lecture:".toList := by
      obtain ⟨a1, r1, ht1e⟩ := List.exists_cons_of_ne_nil ht1ne
      have h : L0.head? = some "Lecture:".toList := by rw [hL0]; rfl
      rw [hdec1, ht1e] at h
      rw [show ((a1 :: r1) ++ List.replicate j1 ([] : Str)).head? = some a1 from rfl] at h
      rw [ht1e, List.head?_cons]
      exact h
    have ht2head : t2.head? = some "Lecture:".toList := by
      rw [ht2]
      by_cases hsep : t1.getLast? = some SEPLINE
      · rw [if_pos hsep]
        have hd : t1 = t1.dropLast ++ [SEPLINE] :=
          dropLast_append_getLast_eq t1 SEPLINE hsep
        cases hdl : t1.dropLast with
        | nil =>
          rw [hdl] at hd
          rw [hd] at ht1head
          rw [show (([] : List Str) ++ [SEPLINE]).head? = some SEPLINE from rfl]
            at ht1head
          injection ht1head with hbad
          exact absurd hbad (by decide)
        | cons a r =>
          have hta : t1.head? = some a := by
            rw [hd, hdl]
            rfl
          rw [ht1head] at hta
          injection hta with hta
          rw [List.head?_cons, ← hta]
      · rw [if_neg hsep]
        exact ht1head
    have ht2ne : t2 ≠ [] := by
      intro h
      rw [h] at ht2head
      simp at ht2head
    have ht2sub : ∀ l ∈ t2, l ∈ L0 := by
      intro l hl
      have hlt1 : l ∈ t1 := by
        rw [ht2] at hl
        by_cases hsep : t1.getLast? = some SEPLINE
        · rw [if_pos hsep] at hl
          exact (List.dropLast_sublist t1).subset hl
        · rw [if_neg hsep] at hl
          exact hl
      rw [hdec1]
      exact List.mem_append_left _ hlt1
    obtain ⟨j2, hdec2⟩ : ∃ j, t2 = M ++ List.replicate j [] :=
      ⟨_, trimTrailBlank_decomp t2⟩
    have hlec2 : "Lecture:".toList ∈ t2 := mem_of_head?_eq t2 _ ht2head
    have hMne : M ≠ [] :=
      trimTrailBlank_ne_nil t2 "Lecture:".toList hlec2 (by decide)
    have hMhead : M.head? = some "Lecture:".toList := by
      obtain ⟨a, r, hMe2⟩ := List.exists_cons_of_ne_nil hMne
      have h := ht2head
      rw [hdec2, hMe2] at h
      rw [show ((a :: r) ++ List.replicate j2 ([] : Str)).head? = some a from rfl] at h
      rw [hMe2, List.head?_cons]
      exact h
    obtain ⟨m0, Mr, hMe⟩ := List.exists_cons_of_ne_nil hMne
    have hm0 : m0 = "Lecture:".toList := by
      have h := hMhead
      rw [hMe, List.head?_cons] at h
      exact Option.some.inj h
    have hJhead : (joinNlL M).head? = some 'L' := by
      rw [hMe, joinNlL_head m0 Mr (by rw [hm0]; decide), hm0]
      rfl
    have h1 : ∀ c, (joinNlL M).head? = some c → pyWs c = false := by
      intro c hc
      rw [hJhead] at hc
      injection hc with hc
      rw [← hc]
      decide
    have hJne : joinNlL M ≠ [] := by
      intro h
      rw [h] at hJhead
      simp at hJhead
    obtain ⟨x, hx⟩ := getLast?_some_of_ne_nil M hMne
    have hxne : x ≠ [] := trimTrailBlank_getLast_ne_blank t2 x hx
    have hsubM : ∀ l ∈ M, l ∈ L0 := fun l hl =>
      ht2sub l (by rw [hdec2]; exact List.mem_append_left _ hl)
    have hxL0 : x ∈ L0 := hsubM x (mem_of_getLast?_eq M x hx)
    have hJlast := joinNlL_getLast M x hx hxne
    have h2 : ∀ c, (joinNlL M).getLast? = some c → pyWs c = false := by
      intro c hc
      rw [hJlast] at hc
      exact (hfacts x hxL0).2 c hc
    have hnlM : ∀ l ∈ M, '\n' ∉ l := fun l hl => (hfacts l (hsubM l hl)).1
    have hjoin : joinNlL t2 = joinNlL M ++ List.replicate j2 '\n' := by
      rw [hdec2]
      exact joinNlL_append_blanks M j2 hMne
    have hstrip : pyStripL (joinNlL t2) = joinNlL M := by
      rw [hjoin]
      exact pyStripL_clean_append_nl _ j2 h1 h2 hJne
    have hsplit : splitNlL (pyStripL (joinNlL t2)) = M := by
      rw [hstrip]
      exact splitNlL_joinNlL M hMne hnlM
    rw [show parse_series_data (joinNlL t2) =
        (decodeLines M ("Other".toList, ([] : Store))).2 from by
      unfold parse_series_data
      rw [hsplit]]
    have hnoop : ∀ l, (l = ([] : Str) ∨ l = SEPLINE) →
        lineWrite l = none ∧ isCatSwitch l = false := by
      intro l hl
      rcases hl with rfl | rfl
      · exact ⟨rfl, rfl⟩
      · exact ⟨rfl, rfl⟩
    have hsnd : (decodeLines L0 ("Other".toList, ([] : Store))).2 =
        (decodeLines M ("Other".toList, [])).2 := by
      by_cases hsep : t1.getLast? = some SEPLINE
      · have ht1d : t1 = t2 ++ [SEPLINE] := by
          rw [ht2, if_pos hsep]
          exact dropLast_append_getLast_eq t1 SEPLINE hsep
        have hL0M : L0 = M ++
            (List.replicate j2 ([] : Str) ++ [SEPLINE] ++ List.replicate j1 []) := by
          rw [hdec1, ht1d, hdec2]
          simp [List.append_assoc]
        rw [hL0M, decodeLines_append,
          decodeLines_noop _ _ (fun l hl => hnoop l (by
            rcases List.mem_append.1 hl with h | h
            · rcases List.mem_append.1 h with h | h
              · exact Or.inl (List.eq_of_mem_replicate h)
              · rcases List.mem_cons.1 h with h | h
                · exact Or.inr h
                · simp at h
            · exact Or.inl (List.eq_of_mem_replicate h)))]
      · have ht1d : t1 = t2 := by rw [ht2, if_neg hsep]
        have hL0M : L0 = M ++
            (List.replicate j2 ([] : Str) ++ List.replicate j1 []) := by
          rw [hdec1, ht1d, hdec2, List.append_assoc]
        rw [hL0M, decodeLines_append,
          decodeLines_noop _ _ (fun l hl => hnoop l (by
            rcases List.mem_append.1 hl with h | h
            · exact Or.inl (List.eq_of_mem_replicate h)
            · exact Or.inl (List.eq_of_mem_replicate h)))]
    have hL0dec : (decodeLines L0 ("Other".toList, ([] : Store))).2 =
        specStoreFold S CATEGORIES [] := by
      rw [hL0, decodeLines_append]
      rw [show decodeLines ["Lecture:".toList, [], [], [], SEPLINE, [], []]
        ("Other".toList, ([] : Store)) = ("Other".toList, []) from rfl]
      exact decodeLines_flatMap_blocks S hcl2 CATEGORIES (fun c hc => hc)
        "Other".toList []
    rw [← hsnd, hL0dec]
    cases hl : lookupS S n with
    | none =>
      have hn : n ∉ S.map Prod.fst := (lookupS_eq_none_iff S n).1 hl
      have hnot : ∀ cat ∈ CATEGORIES,
          n ∉ (S.filter (fun p => effCat p.2 = cat)).map Prod.fst := by
        intro cat _ hmem
        obtain ⟨p, hp, hpn⟩ := List.mem_map.1 hmem
        exact hn (List.mem_map.2 ⟨p, (List.mem_filter.1 hp).1, hpn⟩)
      rw [lookupS_specStoreFold_not_mem S n CATEGORIES [] hnot]
      rfl
    | some i =>
      have hi : (n, i) ∈ S := lookupS_eq_some_mem S n i hl
      have hcat : i.category ∈ CATEGORIES := (hcl (n, i) hi).2.2
      have heff : effCat i = i.category := effCat_of_mem i hcat
      rw [lookupS_specStoreFold_mem S n i hnd hi CATEGORIES [] (by decide)
        (by rw [heff]; exact hcat)]
      rw [heff]


/-! ### Update-engine case equations -/

theorem contains_eq_false_of_not_mem (cat : Str) (h : cat ∉ CATEGORIES) :
    CATEGORIES.contains cat = false := by
  by_cases hc : CATEGORIES.contains cat = true
  · exact absurd (List.elem_iff.1 (by simpa using hc)) h
  · simpa using hc

theorem update_eq_invalid_category (st : Store) (name chap cat : Str)
    (hcat : CATEGORIES.contains cat = false) :
    update_series_chapter name chap cat st = (.invalidCategory, st) := by
  unfold update_series_chapter
  rw [hcat]
  rfl

theorem update_invalid_chapter_eq (st : Store) (name chap cat : Str)
    (hcat : CATEGORIES.contains cat = true)
    (hbad : pyFloat chap = none ∨ ∃ v, pyFloat chap = some v ∧ v.ltZero = true) :
    update_series_chapter name chap cat st = (.invalidChapter, st) := by
  unfold update_series_chapter
  rw [hcat]
  rw [if_neg (by simp)]
  rcases hbad with h | ⟨v, hv, hlt⟩
  · rw [h]
  · rw [hv]
    show (if v.ltZero = true then ((UpdateOutcome.invalidChapter, st) : UpdateOutcome × Store)
      else (UpdateOutcome.ok, dictInsert st name ⟨v, cat⟩)) = (UpdateOutcome.invalidChapter, st)
    rw [if_pos hlt]

theorem update_eq_of_valid (st : Store) (name chap cat : Str) (v : PyFloat)
    (hcat : CATEGORIES.contains cat = true)
    (hp : pyFloat chap = some v) (hlt : v.ltZero = false) :
    update_series_chapter name chap cat st = (.ok, dictInsert st name ⟨v, cat⟩) := by
  unfold update_series_chapter
  rw [hcat]
  rw [if_neg (by simp)]
  rw [hp]
  show (if v.ltZero = true then ((UpdateOutcome.invalidChapter, st) : UpdateOutcome × Store)
    else (UpdateOutcome.ok, dictInsert st name ⟨v, cat⟩)) =
    (UpdateOutcome.ok, dictInsert st name ⟨v, cat⟩)
  rw [hlt]
  rw [if_neg (by simp)]

theorem update_store_cases (st : Store) (name chap cat : Str) :
    (update_series_chapter name chap cat st).2 = st ∨
    ∃ v, pyFloat chap = some v ∧ v.ltZero = false ∧
      (update_series_chapter name chap cat st).2 = dictInsert st name ⟨v, cat⟩ := by
  by_cases hc : CATEGORIES.contains cat = true
  · cases hf : pyFloat chap with
    | none =>
      rw [update_invalid_chapter_eq st name chap cat hc (Or.inl hf)]
      exact Or.inl rfl
    | some v =>
      by_cases hlt : v.ltZero = true
      · rw [update_invalid_chapter_eq st name chap cat hc (Or.inr ⟨v, hf, hlt⟩)]
        exact Or.inl rfl
      · have hlt2 : v.ltZero = false := by simpa using hlt
        rw [update_eq_of_valid st name chap cat v hc hf hlt2]
        exact Or.inr ⟨v, rfl, hlt2, rfl⟩
  · rw [update_eq_invalid_category st name chap cat (by simpa using hc)]
    exact Or.inl rfl

/-! ### Series lines never switch the category -/

theorem lineWrite_some_not_switch (l : Str) (g : Str × PyFloat)
    (h : lineWrite l = some g) : isCatSwitch l = false := by
  simp only [lineWrite] at h
  by_cases h1 : ((pyStripL l).isEmpty || hasSub sepTok (pyStripL l)) = true
  · rw [if_pos h1] at h
    exact absurd h (by simp)
  · by_cases h2 : (pyStripL l).getLast? = some ':'
    · rw [if_neg h1, if_pos h2] at h
      exact absurd h (by simp)
    · have hb : ((pyStripL l).getLast? == some ':') = false := by
        rw [beq_eq_false_iff_ne]
        exact h2
      simp only [isCatSwitch, hb]
      simp

theorem decodeLines_no_switch_cat (c : Str) : ∀ (ls : List Str) (st : Store),
    (∀ l ∈ ls, isCatSwitch l = false) → (∀ p ∈ st, p.2.category = c) →
    ∀ p ∈ (decodeLines ls (c, st)).2, p.2.category = c := by
  intro ls
  induction ls with
  | nil => intro st _ hst; exact hst
  | cons l ls ih =>
    intro st h hst
    show ∀ p ∈ (decodeLines ls (decodeStep (c, st) l)).2, p.2.category = c
    rw [decodeStep_eq]
    rw [catStep_of_not_switch c l (h l (List.mem_cons_self _ _))]
    cases hw : lineWrite l with
    | none =>
      exact ih st (fun x hx => h x (List.mem_cons_of_mem _ hx)) hst
    | some g =>
      obtain ⟨gn, gv⟩ := g
      apply ih _ (fun x hx => h x (List.mem_cons_of_mem _ hx))
      intro p hp
      rcases mem_dictInsert st gn ⟨gv, c⟩ p hp with h2 | h2
      · rw [h2]
      · exact hst p h2

/-! ## The claims -/

/-- Claim C1, counterexample: the round trip does NOT hold for every record
regardless of its name. A record whose name contains the separator token
`-----` is emitted but its line is skipped on decode, so it is lost. -/
theorem C1_counterexample :
    parse_series_data (format_data_to_text
      [("a-----b".toList, ⟨PyFloat.finite 1, "Manga".toList⟩)]) = [] ∧
    ([("a-----b".toList, ⟨PyFloat.finite 1, "Manga".toList⟩)] : Store) ≠ [] := by
  constructor
  · with_unfolding_all decide
  · exact List.cons_ne_nil _ _

/-- Claim C1, amended: the round trip holds for stores with distinct names
whose every record has a clean name (nonempty, stripped, newline-free, not
producing the separator token next to the emitted dash), a chapter printed
in plain decimal notation, and an enumerated category: looking up any name
after decode(encode(S)) agrees with S. -/
theorem C1_amended (S : Store)
    (hnd : (S.map Prod.fst).Nodup)
    (hcl : ∀ p ∈ S, cleanName p.1 ∧ plainChapter p.2.chapter = true ∧
      p.2.category ∈ CATEGORIES) (n : Str) :
    lookupS (parse_series_data (format_data_to_text S)) n = lookupS S n :=
  parse_format_lookup S hnd hcl n

/-- Witness for C1 at a concrete two-record store and name. -/
theorem C1_witness :
    lookupS (parse_series_data (format_data_to_text
      [("Foo".toList, ⟨PyFloat.finite (5 / 2), "Manga".toList⟩),
       ("Bar".toList, ⟨PyFloat.finite 3, "Manhwa".toList⟩)])) "Foo".toList =
    lookupS [("Foo".toList, ⟨PyFloat.finite (5 / 2), "Manga".toList⟩),
       ("Bar".toList, ⟨PyFloat.finite 3, "Manhwa".toList⟩)] "Foo".toList :=
  C1_amended
    [("Foo".toList, ⟨PyFloat.finite (5 / 2), "Manga".toList⟩),
     ("Bar".toList, ⟨PyFloat.finite 3, "Manhwa".toList⟩)]
    (by decide)
    (by
      intro p hp
      rcases List.mem_cons.1 hp with rfl | hp
      · exact ⟨⟨by decide, by decide, by decide, by decide⟩,
          by with_unfolding_all decide, by decide⟩
      · rcases List.mem_cons.1 hp with rfl | hp
        · exact ⟨⟨by decide, by decide, by decide, by decide⟩,
            by with_unfolding_all decide, by decide⟩
        · exact absurd hp (List.not_mem_nil p))
    "Foo".toList

/-- Claim C2: for a category in the enumeration and a chapter input parsing
to a non-negative number, the update succeeds and a subsequent lookup
returns exactly that chapter and category; the write is unconditional in
the prior state of the store. -/
theorem C2_spec (st : Store) (name chap cat : Str) (q : ℚ)
    (hcat : cat ∈ CATEGORIES) (hp : pyFloat chap = some (.finite q)) (h0 : 0 ≤ q) :
    (update_series_chapter name chap cat st).1 = .ok ∧
    lookupS (update_series_chapter name chap cat st).2 name = some ⟨.finite q, cat⟩ := by
  have hlt : (PyFloat.finite q).ltZero = false := by
    show decide (q < 0) = false
    exact decide_eq_false (not_lt.2 h0)
  rw [update_eq_of_valid st name chap cat (.finite q)
    (by simpa using List.elem_iff.2 hcat) hp hlt]
  exact ⟨rfl, lookupS_dictInsert_self st name ⟨.finite q, cat⟩⟩

/-- Witness for C2: the spec scenario apply("Solo Leveling", "12.5", "Manhwa")
on the empty store. -/
theorem C2_witness :
    (update_series_chapter "Solo Leveling".toList "12.5".toList
      "Manhwa".toList []).1 = .ok ∧
    lookupS (update_series_chapter "Solo Leveling".toList "12.5".toList
      "Manhwa".toList []).2 "Solo Leveling".toList =
      some ⟨PyFloat.finite (25 / 2), "Manhwa".toList⟩ :=
  C2_spec [] "Solo Leveling".toList "12.5".toList "Manhwa".toList (25 / 2)
    (by decide) (by with_unfolding_all decide) (by with_unfolding_all decide)

/-- Claim C3: a chapter input that does not parse, or parses negative,
leaves the store exactly unchanged, and (when the category is valid, which
is checked first) the reported failure is InvalidChapter. -/
theorem C3_spec (st : Store) (name chap cat : Str)
    (hbad : pyFloat chap = none ∨ ∃ v, pyFloat chap = some v ∧ v.ltZero = true) :
    (update_series_chapter name chap cat st).2 = st ∧
    (cat ∈ CATEGORIES → (update_series_chapter name chap cat st).1 = .invalidChapter) := by
  by_cases hc : cat ∈ CATEGORIES
  · rw [update_invalid_chapter_eq st name chap cat
      (by simpa using List.elem_iff.2 hc) hbad]
    exact ⟨rfl, fun _ => rfl⟩
  · rw [update_eq_invalid_category st name chap cat (contains_eq_false_of_not_mem cat hc)]
    exact ⟨rfl, fun h => absurd h hc⟩

/-- Witness for C3: the spec scenario apply("Y", "-1", "Manga") on a
one-record store. -/
theorem C3_witness :
    (update_series_chapter "Y".toList "-1".toList "Manga".toList
      [("Y".toList, ⟨PyFloat.finite 5, "Manga".toList⟩)]).2 =
      [("Y".toList, ⟨PyFloat.finite 5, "Manga".toList⟩)] ∧
    (update_series_chapter "Y".toList "-1".toList "Manga".toList
      [("Y".toList, ⟨PyFloat.finite 5, "Manga".toList⟩)]).1 = .invalidChapter := by
  have h := C3_spec [("Y".toList, ⟨PyFloat.finite 5, "Manga".toList⟩)]
    "Y".toList "-1".toList "Manga".toList
    (Or.inr ⟨PyFloat.finite (-1), by with_unfolding_all decide,
      by with_unfolding_all decide⟩)
  exact ⟨h.1, h.2 (by decide)⟩

/-- Claim C4: a category outside the enumeration fails with InvalidCategory
and leaves the store unchanged, for every store and chapter input. -/
theorem C4_spec (st : Store) (name chap cat : Str) (hcat : cat ∉ CATEGORIES) :
    update_series_chapter name chap cat st = (.invalidCategory, st) :=
  update_eq_invalid_category st name chap cat (contains_eq_false_of_not_mem cat hcat)

/-- Witness for C4 at the non-enumerated category "Comics". -/
theorem C4_witness :
    update_series_chapter "X".toList "3".toList "Comics".toList [] =
      (.invalidCategory, []) :=
  C4_spec [] "X".toList "3".toList "Comics".toList (by decide)

/-- Claim C5, counterexample: a successful apply CAN store a chapter that is
not a non-negative real number: the input "inf" parses to a float that is
not `< 0`, so it is accepted and written. -/
theorem C5_counterexample :
    update_series_chapter "X".toList "inf".toList "Manga".toList [] =
      (.ok, [("X".toList, ⟨PyFloat.pinf, "Manga".toList⟩)]) ∧
    nonnegRealChapter PyFloat.pinf = false := by
  constructor
  · with_unfolding_all decide
  · rfl

/-- Claim C5, amended: the invariant the update engine actually preserves is
the Python test `chapter < 0 = false` (which infinities and NaN also pass),
not membership in the non-negative reals. -/
theorem C5_amended (st : Store) (name chap cat : Str)
    (hinv : ∀ p ∈ st, p.2.chapter.ltZero = false) :
    ∀ p ∈ (update_series_chapter name chap cat st).2, p.2.chapter.ltZero = false := by
  intro p hp
  rcases update_store_cases st name chap cat with h | ⟨v, _, hlt, h⟩
  · rw [h] at hp
    exact hinv p hp
  · rw [h] at hp
    rcases mem_dictInsert st name ⟨v, cat⟩ p hp with h2 | h2
    · rw [h2]
      exact hlt
    · exact hinv p h2

/-- Witness for C5 on the empty store and the record written by a concrete
valid update. -/
theorem C5_witness : (PyFloat.finite 2).ltZero = false :=
  C5_amended [] "X".toList "2.0".toList "Manga".toList
    (fun p hp => absurd hp (List.not_mem_nil p))
    ("X".toList, ⟨PyFloat.finite 2, "Manga".toList⟩)
    (by
      rw [update_eq_of_valid [] "X".toList "2.0".toList "Manga".toList
        (PyFloat.finite 2) (by decide) (by with_unfolding_all decide)
        (by with_unfolding_all decide)]
      exact List.mem_cons_self _ _)

/-- Claim C6, counterexample: the header rule is NOT an exact-form match:
the line "Manga : x:" is not of the form `<CategoryName> :` yet it switches
the active category to Manga, because the code compares only the text before
the first colon. -/
theorem C6_counterexample :
    parse_series_data "Manga : x:\nFoo- ep: 1.0".toList =
      [("Foo".toList, ⟨PyFloat.finite 1, "Manga".toList⟩)] ∧
    "Manga : x:".toList ≠ ("Manga".toList ++ " :".toList) := by
  constructor
  · with_unfolding_all decide
  · decide

/-- Claim C6, amended: a non-skipped colon-terminated line switches the
active category exactly when the stripped text before its FIRST colon is a
case-sensitive member of the enumeration (so trailing text after that colon
is irrelevant); in all cases a colon-terminated line leaves the store
untouched. -/
theorem C6_amended (c : Str) (st : Store) (l : Str)
    (hnb : (pyStripL l).isEmpty = false) (hns : hasSub sepTok (pyStripL l) = false)
    (hcol : (pyStripL l).getLast? = some ':') :
    decodeStep (c, st) l =
      (if CATEGORIES.contains (pyStripL ((pyStripL l).takeWhile (fun ch => ch != ':')))
        then (pyStripL ((pyStripL l).takeWhile (fun ch => ch != ':')), st)
        else (c, st)) := by
  simp only [decodeStep]
  rw [hnb, hns]
  rw [if_neg (by simp)]
  rw [if_pos hcol]

/-- Witness for C6 at the line "Manga : x:". -/
theorem C6_witness :
    decodeStep ("Other".toList, ([] : Store)) "Manga : x:".toList =
      (if CATEGORIES.contains
          (pyStripL ((pyStripL "Manga : x:".toList).takeWhile (fun ch => ch != ':')))
        then (pyStripL ((pyStripL "Manga : x:".toList).takeWhile (fun ch => ch != ':')),
          ([] : Store))
        else ("Other".toList, [])) :=
  C6_amended "Other".toList [] "Manga : x:".toList (by decide) (by decide) (by decide)

/-- Claim C7: a line that writes a record writes it with the active category
of the moment, and the loop starts from Other: if no line of the text
switches the category, every decoded record is categorized Other. -/
theorem C7_spec (text : Str) (c : Str) (st : Store) (l n : Str) (v : PyFloat)
    (hw : lineWrite l = some (n, v)) :
    decodeStep (c, st) l = (c, dictInsert st n ⟨v, c⟩) ∧
    ((∀ l2 ∈ splitNlL (pyStripL text), isCatSwitch l2 = false) →
      ∀ p ∈ parse_series_data text, p.2.category = "Other".toList) := by
  constructor
  · rw [decodeStep_eq, hw,
      catStep_of_not_switch c l (lineWrite_some_not_switch l (n, v) hw)]
  · intro hns p hp
    exact decodeLines_no_switch_cat "Other".toList (splitNlL (pyStripL text)) []
      hns (fun p2 hp2 => absurd hp2 (List.not_mem_nil p2)) p hp

/-- Witness for C7 at a concrete series line under the active category
Manhua. -/
theorem C7_witness :
    decodeStep ("Manhua".toList, ([] : Store)) "Foo- ep: 1.0".toList =
      ("Manhua".toList,
        dictInsert [] "Foo".toList ⟨PyFloat.finite 1, "Manhua".toList⟩) :=
  (C7_spec [] "Manhua".toList [] "Foo- ep: 1.0".toList "Foo".toList
    (PyFloat.finite 1) (by with_unfolding_all decide)).1

/-- Claim C8, counterexample: the exporter does NOT trim all trailing blank
lines: the emitted document for a one-record store ends in a newline (three
blank lines remain after the final series line, because the code pops blank
lines only down to the last separator and then pops that one separator). -/
theorem C8_counterexample :
    (format_data_to_text
      [("Foo".toList, ⟨PyFloat.finite 1, "Manga".toList⟩)]).getLast? =
      some '\n' := by
  with_unfolding_all decide

/-- Claim C8, amended: what the exporter emits is the spec-shaped document
up to the final trim: categories in enumeration order, empty categories
omitted, records sorted by lowercased name, a separator after each block,
trailing blank lines popped and then exactly one trailing separator popped
(blank padding after the last series line survives). -/
theorem C8_amended (S : Store) (hnd : (S.map Prod.fst).Nodup) :
    format_data_to_text S = encodeSpecText S ∧
    ∀ cat, (sortByName (S.filter (fun p => effCat p.2 = cat))).Pairwise
      (fun a b => lexLt (lowerKey b.1) (lowerKey a.1) = false) :=
  ⟨format_eq_specText S hnd, fun _ => sortByName_sorted _⟩

/-- Witness for C8 at a concrete one-record store. -/
theorem C8_witness :
    format_data_to_text [("Foo".toList, ⟨PyFloat.finite 1, "Manga".toList⟩)] =
      encodeSpecText [("Foo".toList, ⟨PyFloat.finite 1, "Manga".toList⟩)] :=
  (C8_amended [("Foo".toList, ⟨PyFloat.finite 1, "Manga".toList⟩)] (by decide)).1

/-- Claim C9: blank lines and lines containing the separator token are
skipped with no change of state, and a line that neither switches the
category nor matches the series grammar is a complete no-op. -/
theorem C9_spec (c : Str) (st : Store) (l : Str)
    (h : ((pyStripL l).isEmpty = true ∨ hasSub sepTok (pyStripL l) = true) ∨
      (lineWrite l = none ∧ isCatSwitch l = false)) :
    decodeStep (c, st) l = (c, st) := by
  rcases h with h | ⟨h1, h2⟩
  · exact decodeStep_skip c st l h
  · exact decodeStep_noop c st l h1 h2

/-- Witness for C9 at the non-matching line of the empty-store export. -/
theorem C9_witness :
    decodeStep ("Other".toList, ([] : Store)) "[No series tracked]".toList =
      ("Other".toList, []) :=
  C9_spec "Other".toList [] "[No series tracked]".toList
    (Or.inr ⟨by decide, by decide⟩)

/-- Claim C10: when several series lines share a name, the store keeps the
chapter of the LAST such line, under the category active at that line. -/
theorem C10_spec (text : Str) (ls1 ls2 : List Str) (l n : Str) (v : PyFloat)
    (hsplit : splitNlL (pyStripL text) = ls1 ++ l :: ls2)
    (hw : lineWrite l = some (n, v))
    (hafter : ∀ l2 ∈ ls2, ∀ v2, lineWrite l2 ≠ some (n, v2)) :
    lookupS (parse_series_data text) n =
      some ⟨v, catFold ls1 "Other".toList⟩ := by
  unfold parse_series_data
  rw [hsplit, decodeLines_append]
  cases hP : decodeLines ls1 ("Other".toList, ([] : Store)) with
  | mk c1 st1 =>
    have hc1 : c1 = catFold ls1 "Other".toList := by
      rw [← decodeLines_fst ls1 "Other".toList [], hP]
    show lookupS (decodeLines ls2 (decodeStep (c1, st1) l)).2 n =
      some ⟨v, catFold ls1 "Other".toList⟩
    rw [decodeStep_eq, hw]
    show lookupS (decodeLines ls2 (catStep c1 l, dictInsert st1 n ⟨v, c1⟩)).2 n =
      some ⟨v, catFold ls1 "Other".toList⟩
    rw [lookupS_decodeLines_no_write ls2 (catStep c1 l) (dictInsert st1 n ⟨v, c1⟩)
      n hafter]
    rw [lookupS_dictInsert_self]
    rw [hc1]

/-- Witness for C10: the same name written twice, the second time under a
Manga header; the last write and its category win. -/
theorem C10_witness :
    lookupS (parse_series_data "A- ep: 1.0\nManga :\nA- ep: 2.0".toList)
      "A".toList = some ⟨PyFloat.finite 2, "Manga".toList⟩ := by
  rw [C10_spec "A- ep: 1.0\nManga :\nA- ep: 2.0".toList
    ["A- ep: 1.0".toList, "Manga :".toList] [] "A- ep: 2.0".toList "A".toList
    (PyFloat.finite 2) (by decide) (by with_unfolding_all decide)
    (fun l2 hl2 => absurd hl2 (List.not_mem_nil l2))]
  rfl

end SeriesTracker
